import Mathlib

/-! Formal model of the FIRMS/UNGRD processing scripts
    (text normalization, nearest-date matching, deduplicating merge,
    rejection sampling, output-path versioning), with theorems checking
    the specification's claims against the code. -/

namespace Spec2Proof

/-! ### Python string primitives

The scripts call Python's `str.upper`, `str.strip`,
`unicodedata.normalize("NFKD", _)`, `unicodedata.combining` and the regex
substitution `re.sub(r"\s+", " ", _)`.  These library functions (external to
the repository) are modelled as total functions on `List Char`, faithful on
the repertoire the pipeline handles (ASCII plus Latin-1 letters); characters
outside the finite tables are left unchanged. -/

/-- A Python `str`, modelled as a list of characters. -/
abbrev PyStr := List Char

/-- Python whitespace test: the full set of characters `str.strip` and the
regex class regex-s treat as whitespace (tab through carriage return, the
separators U+001C to U+001F, space, NEL, NBSP, the Ogham space mark, the
general-punctuation spaces U+2000 to U+200A, the line and paragraph
separators, the narrow no-break space, the medium mathematical space and
the ideographic space). -/
def pyIsSpace (c : Char) : Bool :=
  (9 ≤ c.toNat && c.toNat ≤ 13) || (0x1C ≤ c.toNat && c.toNat ≤ 0x20) ||
  c.toNat == 0x85 || c.toNat == 0xA0 || c.toNat == 0x1680 ||
  (0x2000 ≤ c.toNat && c.toNat ≤ 0x200A) || c.toNat == 0x2028 ||
  c.toNat == 0x2029 || c.toNat == 0x202F || c.toNat == 0x205F ||
  c.toNat == 0x3000

/-- Case-mapping table of Python `str.upper` on ASCII letters and Latin-1
letters (including the two multi-char or cross-block cases
sharp-s to SS and micro sign to Greek Mu). -/
def upperMap : List (Char × List Char) :=
  [('a', ['A']), ('b', ['B']), ('c', ['C']), ('d', ['D']), ('e', ['E']),
   ('f', ['F']), ('g', ['G']), ('h', ['H']), ('i', ['I']), ('j', ['J']),
   ('k', ['K']), ('l', ['L']), ('m', ['M']), ('n', ['N']), ('o', ['O']),
   ('p', ['P']), ('q', ['Q']), ('r', ['R']), ('s', ['S']), ('t', ['T']),
   ('u', ['U']), ('v', ['V']), ('w', ['W']), ('x', ['X']), ('y', ['Y']),
   ('z', ['Z']),
   ('à', ['À']), ('á', ['Á']), ('â', ['Â']), ('ã', ['Ã']), ('ä', ['Ä']),
   ('å', ['Å']), ('æ', ['Æ']), ('ç', ['Ç']), ('è', ['È']), ('é', ['É']),
   ('ê', ['Ê']), ('ë', ['Ë']), ('ì', ['Ì']), ('í', ['Í']), ('î', ['Î']),
   ('ï', ['Ï']), ('ð', ['Ð']), ('ñ', ['Ñ']), ('ò', ['Ò']), ('ó', ['Ó']),
   ('ô', ['Ô']), ('õ', ['Õ']), ('ö', ['Ö']), ('ø', ['Ø']), ('ù', ['Ù']),
   ('ú', ['Ú']), ('û', ['Û']), ('ü', ['Ü']), ('ý', ['Ý']), ('þ', ['Þ']),
   ('ÿ', ['Ÿ']), ('ß', ['S', 'S']), ('µ', ['Μ'])]

/-- Python `str.upper`, one character at a time (identity off the table). -/
def pyUpper (c : Char) : List Char :=
  (upperMap.lookup c).getD [c]

/-- Python `str.upper` on a whole string. -/
def pyUpperStr (s : PyStr) : PyStr :=
  s.flatMap pyUpper

/-- NFKD decomposition table (`unicodedata.normalize("NFKD", _)`) for the
Latin-1 characters reachable after uppercasing: precomposed uppercase
letters decompose canonically into base letter plus combining mark, and
the case-invariant compatibility characters decompose as Unicode
prescribes — NBSP to a plain space, the spacing diacritics diaeresis,
macron, acute and cedilla to space plus combining mark, the ordinal
indicators to lowercase `a` and `o`, the superscript digits to plain
digits and the vulgar fractions to digit, fraction slash, digit.  (The
micro sign uppercases to Greek capital Mu before NFKD runs, so its
decomposition is unreachable in the pipeline.) -/
def nfkdMap : List (Char × List Char) :=
  [('À', ['A', '̀']), ('Á', ['A', '́']), ('Â', ['A', '̂']),
   ('Ã', ['A', '̃']), ('Ä', ['A', '̈']), ('Å', ['A', '̊']),
   ('Ç', ['C', '̧']), ('È', ['E', '̀']), ('É', ['E', '́']),
   ('Ê', ['E', '̂']), ('Ë', ['E', '̈']), ('Ì', ['I', '̀']),
   ('Í', ['I', '́']), ('Î', ['I', '̂']), ('Ï', ['I', '̈']),
   ('Ñ', ['N', '̃']), ('Ò', ['O', '̀']), ('Ó', ['O', '́']),
   ('Ô', ['O', '̂']), ('Õ', ['O', '̃']), ('Ö', ['O', '̈']),
   ('Ù', ['U', '̀']), ('Ú', ['U', '́']), ('Û', ['U', '̂']),
   ('Ü', ['U', '̈']), ('Ý', ['Y', '́']), ('Ÿ', ['Y', '̈']),
   (' ', [' ']),
   ('¨', [' ', '̈']), ('¯', [' ', '̄']),
   ('´', [' ', '́']), ('¸', [' ', '̧']),
   ('ª', ['a']), ('º', ['o']),
   ('¹', ['1']), ('²', ['2']), ('³', ['3']),
   ('¼', ['1', '⁄', '4']), ('½', ['1', '⁄', '2']),
   ('¾', ['3', '⁄', '4'])]

/-- NFKD decomposition of one character (identity off the table). -/
def nfkd (c : Char) : List Char :=
  (nfkdMap.lookup c).getD [c]

/-- The test `unicodedata.combining(ch) != 0`, restricted to the block of
combining diacritical marks U+0300 to U+036F (all marks the model's NFKD
table can produce lie in this block). -/
def combining (c : Char) : Bool :=
  0x300 ≤ c.toNat && c.toNat ≤ 0x36F

/-- The guard singling out the two characters on which `normalize_text`
is not idempotent: the ordinal indicators, whose NFKD compatibility
decompositions are the lowercase letters `a` and `o` while `str.upper`
(which runs before the decomposition) leaves them unchanged. -/
def idemSafe (c : Char) : Bool :=
  !(c == 'ª' || c == 'º')

/-- Python `str.strip`: drop leading and trailing whitespace. -/
def stripWs (l : PyStr) : PyStr :=
  ((l.dropWhile pyIsSpace).reverse.dropWhile pyIsSpace).reverse

/-- Worker for `collapseWs`; the flag records whether the previous input
character was whitespace (so a continuing run emits nothing). -/
def collapseAux : Bool → PyStr → PyStr
  | _, [] => []
  | prevSpace, c :: rest =>
    if pyIsSpace c then
      if prevSpace then collapseAux true rest
      else ' ' :: collapseAux true rest
    else c :: collapseAux false rest

/-- The regex substitution of a single space for every maximal run of
whitespace characters (the match script's collapse step). -/
def collapseWs (l : PyStr) : PyStr :=
  collapseAux false l

/-- The function `normalize_text` of `firms_ungrd_match.py` (also the
merge/admin-join normalizer): null passes through; otherwise uppercase,
strip, NFKD-decompose, remove combining marks, collapse whitespace runs
to a single space and trim the ends. -/
def normalize_text (v : Option PyStr) : Option PyStr :=
  match v with
  | none => none
  | some s =>
    let s1 := stripWs (s.flatMap pyUpper)
    let s2 := (s1.flatMap nfkd).filter (fun c => !combining c)
    some (stripWs (collapseWs s2))

/-! ### Decimal rendering (Python f-strings and format specifiers) -/

/-- Little-endian base-10 digit list, computed with explicit fuel so that
it reduces by evaluation (the fuel `n` itself always suffices). -/
def natDigitsAux : Nat → Nat → List Nat
  | 0, _ => []
  | _, 0 => []
  | fuel + 1, n + 1 => ((n + 1) % 10) :: natDigitsAux fuel ((n + 1) / 10)

/-- Little-endian base-10 digits of a natural number. -/
def natDigits (n : Nat) : List Nat :=
  natDigitsAux n n

/-- Decimal rendering of a natural number (Python `str(n)` for
nonnegative `n`). -/
def natStr (n : Nat) : PyStr :=
  if n = 0 then ['0'] else ((natDigits n).map Nat.digitChar).reverse

/-- Zero-padding to width 3, the format specifier v-03d used by the merge
writer's version suffix. -/
def pad3 (n : Nat) : PyStr :=
  List.replicate (3 - (natStr n).length) '0' ++ natStr n

/-- Zero-padding to width 2 (ISO date components). -/
def pad2 (n : Nat) : PyStr :=
  List.replicate (2 - (natStr n).length) '0' ++ natStr n

/-- Zero-padding to width 4 (ISO year). -/
def pad4 (n : Nat) : PyStr :=
  List.replicate (4 - (natStr n).length) '0' ++ natStr n

/-! ### Keep-first deduplication (pandas `drop_duplicates(keep="first")`) -/

/-- Worker for `firstDedupBy`: `seen` collects the keys already kept. -/
def fdbAux {α κ : Type} [DecidableEq κ] (keyOf : α → κ) : List κ → List α → List α
  | _, [] => []
  | seen, a :: l =>
    if keyOf a ∈ seen then fdbAux keyOf seen l
    else a :: fdbAux keyOf (keyOf a :: seen) l

/-- pandas `drop_duplicates(subset=keys, keep="first")`: keep the first
record of each key group, preserving order. -/
def firstDedupBy {α κ : Type} [DecidableEq κ] (keyOf : α → κ) (l : List α) : List α :=
  fdbAux keyOf [] l

/-- Keep-first deduplication of a plain list (pandas `drop_duplicates` on a
single column). -/
def firstDedup {α : Type} [DecidableEq α] (l : List α) : List α :=
  firstDedupBy id l

/-- First non-null entry of a column slice — the per-column semantics of
pandas `GroupBy.first()` (it skips nulls). -/
def firstSome {α : Type} : List (Option α) → Option α
  | [] => none
  | some a :: _ => some a
  | none :: l => firstSome l

/-! ### FIRMS vs UNGRD matching core (`firms_ungrd_match.py`) -/

/-- A loaded FIRMS point as the matcher sees it: normalized department and
municipality keys (null when the raw value was null) and the acquisition
date `fecha_FIRMS` in whole days (null when year/month/day were
unparseable).  Geometry and passthrough attributes are irrelevant to the
claims and omitted. -/
structure FirmsPoint where
  depto : Option PyStr
  muni : Option PyStr
  fecha : Option Int
deriving DecidableEq, Repr

/-- A loaded UNGRD event row: normalized keys and the event date `FECHA`
in whole days (null when unparseable). -/
structure UngrdRow where
  depto : Option PyStr
  muni : Option PyStr
  fecha : Option Int
deriving DecidableEq, Repr

/-- Key equality as pandas `merge` applies it to a join column: equal
non-null keys match, and null keys also match each other (the merge
factorizes every NA key on both sides to one shared join code, so
None/NaN keys pair up), while a null key never matches a non-null one. -/
def optKeyEq (a b : Option PyStr) : Bool :=
  match a, b with
  | some x, some y => x == y
  | none, none => true
  | _, _ => false

/-- One row of the candidate table produced by `build_candidates`: the
point index `idx_firms`, the point date and the event date (null event
fields for a point with no administrative match). -/
structure Candidate where
  idx : Nat
  fechaF : Option Int
  fechaU : Option Int
deriving DecidableEq, Repr

/-- Function `build_candidates`: left outer join of points to events on the
normalized (department, municipality) key; a point with no matching event
yields a single candidate row with null event fields. -/
def build_candidates (pts : List FirmsPoint) (events : List UngrdRow) : List Candidate :=
  pts.enum.flatMap (fun pr =>
    let ms := events.filter (fun e =>
      optKeyEq pr.2.depto e.depto && optKeyEq pr.2.muni e.muni)
    if ms.isEmpty then [⟨pr.1, pr.2.fecha, none⟩]
    else ms.map (fun e => ⟨pr.1, pr.2.fecha, e.fecha⟩))

/-- The column `dif_dias = (fecha_FIRMS - FECHA).dt.days`: signed day
difference, null when either date is null. -/
def dayDiff (c : Candidate) : Option Int :=
  match c.fechaF, c.fechaU with
  | some a, some b => some (a - b)
  | _, _ => none

/-- The column `dif_dias_abs`. -/
def dayDiffAbs (c : Candidate) : Option Int :=
  (dayDiff c).map (fun d => |d|)

/-- Sort key order on the nullable `dif_dias_abs` column: pandas
`sort_values` puts nulls last. -/
def absLEb : Option Int → Option Int → Bool
  | _, none => true
  | none, some _ => false
  | some a, some b => decide (a ≤ b)

/-- The lexicographic sort key of `sort_values(["idx_firms", "dif_dias_abs"])`. -/
def candLEb (c1 c2 : Candidate) : Bool :=
  decide (c1.idx < c2.idx) || (c1.idx == c2.idx && absLEb (dayDiffAbs c1) (dayDiffAbs c2))

/-- Tier label `exacta`. -/
def tierExacta : PyStr := "exacta".data

/-- Tier label `sin_coincidencia`. -/
def tierNone : PyStr := "sin_coincidencia".data

/-- Tier label from the f-string ventana-underscore-w-dias. -/
def tierWindow (w : Nat) : PyStr :=
  "ventana_".data ++ natStr w ++ "dias".data

/-- One row of the output of `best_match_per_point`: the selected match
per point index with its date, signed and absolute day differences and
tier label. -/
structure MatchRow where
  idx : Nat
  fechaMatch : Option Int
  difMin : Option Int
  difAbs : Option Int
  tipo : PyStr
deriving DecidableEq, Repr

/-- Function `best_match_per_point`: restrict to candidates with a non-null event
date; if none remain, every point index gets a null `sin_coincidencia`
row; otherwise stable-sort by (point index, absolute day difference with
nulls last), group by point index and take the groupwise first non-null
value of each column (pandas `groupby(...).first()`), then classify. -/
def best_match_per_point (merged : List Candidate) (w : Nat) : List MatchRow :=
  let valid := merged.filter (fun c => c.fechaU.isSome)
  if valid.isEmpty then
    (firstDedup (merged.map (fun c => c.idx))).map
      (fun i => ⟨i, none, none, none, tierNone⟩)
  else
    let sorted := valid.insertionSort (fun a b => candLEb a b = true)
    let keys := firstDedup (sorted.map (fun c => c.idx))
    keys.map (fun i =>
      let grp := sorted.filter (fun c => c.idx == i)
      let dm := firstSome (grp.map dayDiff)
      let da := firstSome (grp.map dayDiffAbs)
      let fm := firstSome (grp.map (fun c => c.fechaU))
      let exacta := dm == some 0
      let ventana := !exacta && (match da with
        | some d => decide (d ≤ (w : Int))
        | none => false)
      ⟨i, fm, dm, da,
        if exacta then tierExacta
        else if ventana then tierWindow w
        else tierNone⟩)

/-- Intermediate row of `attach_matches` before the `fillna`: the tier is
still nullable. -/
structure IdxMatchRow where
  idx : Nat
  fechaMatch : Option Int
  difMin : Option Int
  difAbs : Option Int
  tipo : Option PyStr
deriving DecidableEq, Repr

/-- One row of the final output frame: the original point with the
attached match columns (all nullable after the left joins). -/
structure OutRow where
  idx : Nat
  fechaF : Option Int
  depto : Option PyStr
  muni : Option PyStr
  fechaMatch : Option Int
  difMin : Option Int
  difAbs : Option Int
  tipo : Option PyStr
deriving DecidableEq, Repr

/-- First half of `attach_matches`: left-join the match rows onto the bare
index column of the point frame, then fill a missing tier with
`sin_coincidencia` (the `fillna`). -/
def attach_m (pts : List FirmsPoint) (mrows : List MatchRow) : List IdxMatchRow :=
  let m0 : List IdxMatchRow := (List.range pts.length).flatMap (fun i =>
    let ms := mrows.filter (fun r => r.idx == i)
    if ms.isEmpty then [⟨i, none, none, none, none⟩]
    else ms.map (fun r => ⟨r.idx, r.fechaMatch, r.difMin, r.difAbs, some r.tipo⟩))
  m0.map (fun r => { r with tipo := some (r.tipo.getD tierNone) })

/-- Function `attach_matches`: left-join the match rows onto the bare index column,
fill a missing tier with `sin_coincidencia`, then left-join the result
back onto the full point set by index. -/
def attach_matches (pts : List FirmsPoint) (mrows : List MatchRow) : List OutRow :=
  let m := attach_m pts mrows
  pts.enum.flatMap (fun pr =>
    let ms := m.filter (fun r => r.idx == pr.1)
    if ms.isEmpty then [⟨pr.1, pr.2.fecha, pr.2.depto, pr.2.muni, none, none, none, none⟩]
    else ms.map (fun r =>
      ⟨pr.1, pr.2.fecha, pr.2.depto, pr.2.muni, r.fechaMatch, r.difMin, r.difAbs, r.tipo⟩))

/-! ### Deduplicating merge (`firms_merge.py`) -/

/-- The priority column: rank 0 for records whose instrument equals the
preferred value after `str.upper` on both sides, rank 1 otherwise. -/
def instrRank {α : Type} (instrOf : α → PyStr) (prefer : PyStr) (r : α) : Nat :=
  if pyUpperStr (instrOf r) = pyUpperStr prefer then 0 else 1

/-- Admissibility relation of the sort step
`gdf.sort_values(by=["_priority"])`: a single-column sort, for which
pandas delegates to numpy argsort with the default `kind="quicksort"`
(introsort).  That sort guarantees a result ordered by the rank column but
is not stable, so the relative order of equal-rank records is unspecified;
the model therefore relates the input to every rank-ordered permutation of
it rather than to one canonical arrangement. -/
def isPrioritySort {α : Type} (instrOf : α → PyStr) (prefer : PyStr)
    (l srt : List α) : Prop :=
  List.Perm srt l ∧
  srt.Pairwise (fun a b => instrRank instrOf prefer a ≤ instrRank instrOf prefer b)

/-- Function `deduplicate_prefer_instrument` downstream of its sort step:
from an admissible arrangement `srt` of the input `l` (see
`isPrioritySort`), drop duplicates on the dedup key keeping the first
record per key, and report the dropped count `before - len(gdf2)`. -/
def deduplicate_prefer_instrument {α κ : Type} [DecidableEq κ]
    (l : List α) (keyOf : α → κ) (srt : List α) : List α × Nat :=
  let kept := firstDedupBy keyOf srt
  (kept, l.length - kept.length)

/-! ### Acquisition-date normalization (`firms_merge.py`) -/

/-- Split a string at every occurrence of a separator character. -/
def splitOnChar (sep : Char) : PyStr → List PyStr
  | [] => [[]]
  | c :: rest =>
    let r := splitOnChar sep rest
    if c = sep then [] :: r
    else match r with
      | [] => [[c]]
      | h :: t => (c :: h) :: t

/-- Parse a nonempty all-digit string as a natural number. -/
def parseNatDigits (s : PyStr) : Option Nat :=
  if s.isEmpty then none
  else if s.all (fun c => c.isDigit) then
    some (s.foldl (fun acc c => 10 * acc + (c.toNat - 48)) 0)
  else none

/-- Gregorian leap-year test. -/
def isLeap (y : Nat) : Bool :=
  (y % 4 == 0 && y % 100 != 0) || y % 400 == 0

/-- Days in a month of the proleptic Gregorian calendar. -/
def daysInMonth (y m : Nat) : Nat :=
  if m = 2 then (if isLeap y then 29 else 28)
  else if m = 4 ∨ m = 6 ∨ m = 9 ∨ m = 11 then 30
  else 31

/-- Calendar validity as `datetime.strptime` checks it. -/
def validDate (y m d : Nat) : Bool :=
  1 ≤ m && m ≤ 12 && 1 ≤ d && d ≤ daysInMonth y m && 1 ≤ y && y ≤ 9999

/-- Model of `datetime.strptime(s, "%d<sep>%m<sep>%Y")`: day and month of
one or two digits (values 1-31 and 1-12, as the strptime character
classes admit), a year of exactly four digits (the `%Y` pattern is four
digit characters), all three separated by the given separator with
nothing left over, and the triple must be a valid calendar date of year
at least 1 (the `datetime` constructor's range check). -/
def strpDMY (sep : Char) (s : PyStr) : Option (Nat × Nat × Nat) :=
  match splitOnChar sep s with
  | [ds, ms, ys] =>
    match parseNatDigits ds, parseNatDigits ms, parseNatDigits ys with
    | some d, some m, some y =>
      if ds.length ≤ 2 && ms.length ≤ 2 && ys.length = 4 && validDate y m d then
        some (y, m, d)
      else none
    | _, _, _ => none
  | _ => none

/-- Model of `date.isoformat()`. -/
def isoDate (y m d : Nat) : PyStr :=
  pad4 y ++ '-' :: pad2 m ++ '-' :: pad2 d

/-- Function `parse_dd_mm_yyyy` of `firms_merge.py`: null passes through;
otherwise strip, try the three explicit day-first formats, then the
external fallback `pd.to_datetime(s, dayfirst=True, errors="raise")`.
That fallback's accepted language (dateutil's) is large and
version-dependent, so it enters the model as a parameter: an arbitrary
partial parser returning the date on success and `none` when the call
raises.  If every parse fails the stripped original string is returned
(never null). -/
def parse_dd_mm_yyyy (fallback : PyStr → Option (Nat × Nat × Nat))
    (val : Option PyStr) : Option PyStr :=
  match val with
  | none => none
  | some v =>
    let s := stripWs v
    match strpDMY '-' s with
    | some (y, m, d) => some (isoDate y m d)
    | none => match strpDMY '/' s with
      | some (y, m, d) => some (isoDate y m d)
      | none => match strpDMY '.' s with
        | some (y, m, d) => some (isoDate y m d)
        | none => match fallback s with
          | some (y, m, d) => some (isoDate y m d)
          | none => some s

/-- Function `normalize_acq_date`: apply `parse_dd_mm_yyyy` to every value of the
`ACQ_DATE` column to produce `ACQ_DATE_NORM`. -/
def normalize_acq_date (fallback : PyStr → Option (Nat × Nat × Nat))
    (col : List (Option PyStr)) : List (Option PyStr) :=
  col.map (parse_dd_mm_yyyy fallback)

/-! ### Random-absence rejection sampler (`random_absence_points.py`) -/

/-- A planar geometry as the sampler consumes it: its bounding box and the
boundary-exclusive containment test `geom.contains(Point(x, y))` of the
external geometry library. -/
structure Geom where
  minx : ℚ
  miny : ℚ
  maxx : ℚ
  maxy : ℚ
  containsB : ℚ × ℚ → Bool

/-- Squared Euclidean distance between two planar points. -/
def dSq (p e : ℚ × ℚ) : ℚ :=
  (p.1 - e.1) ^ 2 + (p.2 - e.2) ^ 2

/-- Function `build_allowed_zone`: the eligible region is the AOI union minus the
union of closed disks of radius `buf` around the exclusion points.  Since
that union of disks is closed, the strict interior of the difference is
exactly the AOI's strict interior minus the disks, which is what
`containsB` computes here (`aoiItr` is the AOI union's own strict-interior
test, and the bounding box is the one the geometry library reports). -/
def build_allowed_zone (aoiItr : ℚ × ℚ → Bool) (excl : List (ℚ × ℚ)) (buf : ℚ)
    (minx miny maxx maxy : ℚ) : Geom :=
  { minx := minx, miny := miny, maxx := maxx, maxy := maxy,
    containsB := fun p => aoiItr p && excl.all (fun e => decide (buf * buf < dSq p e)) }

/-- One step of a 64-bit linear congruential generator. -/
def lcgNext (s : Nat) : Nat :=
  (6364136223846793005 * s + 1442695040888963407) % 2 ^ 64

/-- The generator state after `k + 1` steps from the seed. -/
def lcgState (seed : Nat) : Nat → Nat
  | 0 => lcgNext seed
  | k + 1 => lcgNext (lcgState seed k)

/-- Model of the external PRNG `numpy.random.default_rng(seed)`: a
deterministic stream of unit-interval rationals that is a pure function of
the seed — the property of the generator the specification relies on. -/
def unitStream (seed : Nat) (k : Nat) : ℚ :=
  (lcgState seed k : ℚ) / 2 ^ 64

/-- Model of `rng.uniform(lo, hi)` applied to one unit-interval draw. -/
def uniformDraw (lo hi u : ℚ) : ℚ :=
  lo + u * (hi - lo)

/-- The rejection loop of `generate_random_points_in_geom`: while fewer
than `n` points are accepted and attempts remain, draw a point uniformly
from the bounding box and accept it iff `containsB` holds.  Returns the
accepted points in acceptance order and the number of attempts made.
`fuel` is the remaining attempt budget, so the loop guard
`attempts < max_attempts` is `fuel > 0`. -/
def sampleGo (g : Geom) (n : Nat) (stream : Nat → ℚ) :
    Nat → Nat → List (ℚ × ℚ) → List (ℚ × ℚ) × Nat
  | 0, attempts, acc => (acc.reverse, attempts)
  | fuel + 1, attempts, acc =>
    if n ≤ acc.length then (acc.reverse, attempts)
    else
      let x := uniformDraw g.minx g.maxx (stream (2 * attempts))
      let y := uniformDraw g.miny g.maxy (stream (2 * attempts + 1))
      let acc2 := if g.containsB (x, y) then (x, y) :: acc else acc
      sampleGo g n stream fuel (attempts + 1) acc2

/-- The payload of the `RuntimeError` raised when the attempt budget is
exhausted: points obtained, points requested, attempts made. -/
structure InsufficientSamples where
  obtained : Nat
  requested : Nat
  attempts : Nat
deriving DecidableEq, Repr

/-- Function `generate_random_points_in_geom`: run the rejection loop with attempt
budget `n * f` over the PRNG seeded with `seed`; raise the
insufficient-samples error when fewer than `n` points were accepted. -/
def generate_random_points_in_geom (g : Geom) (n : Nat) (seed : Nat) (f : Nat) :
    Except InsufficientSamples (List (ℚ × ℚ)) :=
  let r := sampleGo g n (unitStream seed) (n * f) 0 []
  if r.1.length < n then .error ⟨r.1.length, n, r.2⟩ else .ok r.1

/-! ### Output-path versioning (`firms_merge.py` and the matcher/sampler) -/

/-- Index of the last occurrence of a character (Python `str.rfind`,
`none` for not found). -/
def lastIdxOf (c : Char) (l : PyStr) : Option Nat :=
  ((l.enum.filter (fun pr => pr.2 == c)).map (fun pr => pr.1)).getLast?

/-- Model of `os.path.splitext`: split the extension at the last dot, provided the
dot lies in the basename and the basename has a non-dot character before
it (so dotfiles are not split). -/
def splitext (p : PyStr) : PyStr × PyStr :=
  let nameStart : Nat := match lastIdxOf '/' p with
    | some i => i + 1
    | none => 0
  match lastIdxOf '.' p with
  | none => (p, [])
  | some d =>
    if nameStart ≤ d ∧ ((List.range d).drop nameStart).any (fun j => p.getD j '.' ≠ '.') then
      (p.take d, p.drop d)
    else (p, [])

/-- The candidate path of the merge writer's scheme: insert the marker
underscore-v-03d before the extension. -/
def shpCandidate (p : PyStr) (v : Nat) : PyStr :=
  (splitext p).1 ++ '_' :: 'v' :: pad3 v ++ (splitext p).2

/-- The candidate path of the matcher/sampler scheme: insert the marker
underscore-k before the extension. -/
def underscoreCandidate (p : PyStr) (k : Nat) : PyStr :=
  (splitext p).1 ++ '_' :: natStr k ++ (splitext p).2

/-- Function `next_version_path` of `firms_merge.py` against a finite store of
existing paths: an absent path is returned unchanged, otherwise probe
`_v002`, `_v003`, sequentially for the first absent candidate.  The
unbounded `while True` always terminates within `store.length + 1` probes
because distinct versions give distinct candidate paths, so the search is
bounded by that many probes (the fallback branch is unreachable). -/
def next_version_path (store : List PyStr) (p : PyStr) : PyStr :=
  if p ∈ store then
    match ((List.range (store.length + 1)).map (fun m => 2 + m)).find?
        (fun v => decide (shpCandidate p v ∉ store)) with
    | some v => shpCandidate p v
    | none => p
  else p

/-- Function `next_version_path_suffix_1` of `firms_ungrd_match.py` (also the
sampler's): same probing with markers underscore-1, underscore-2, and
starting index 1. -/
def next_version_path_suffix_1 (store : List PyStr) (p : PyStr) : PyStr :=
  if p ∈ store then
    match ((List.range (store.length + 1)).map (fun m => 1 + m)).find?
        (fun k => decide (underscoreCandidate p k ∉ store)) with
    | some k => underscoreCandidate p k
    | none => p
  else p

/-! ## Theorems -/

/-! ### Sampler (claims C4, C5, C6) -/

lemma sampleGo_spec (g : Geom) (n : Nat) (stream : Nat → ℚ) :
    ∀ (fuel a : Nat) (acc : List (ℚ × ℚ)), acc.length ≤ n →
      (sampleGo g n stream fuel a acc).2 ≤ a + fuel ∧
      (sampleGo g n stream fuel a acc).1.length ≤ n ∧
      ((sampleGo g n stream fuel a acc).1.length < n →
        (sampleGo g n stream fuel a acc).2 = a + fuel) ∧
      (n ≤ (sampleGo g n stream fuel a acc).1.length →
        (sampleGo g n stream fuel a acc).1.length = n) := by
  intro fuel
  induction fuel with
  | zero =>
    intro a acc hle
    simp only [sampleGo, List.length_reverse]
    exact ⟨Nat.le_refl _, hle, fun _ => rfl, fun h => Nat.le_antisymm hle h⟩
  | succ fuel ih =>
    intro a acc hle
    by_cases hn : n ≤ acc.length
    · simp only [sampleGo, if_pos hn, List.length_reverse]
      exact ⟨Nat.le_add_right _ _, hle,
        fun hlt => absurd hn (Nat.not_le_of_lt hlt),
        fun _ => Nat.le_antisymm hle hn⟩
    · have hacc : acc.length < n := Nat.lt_of_not_le hn
      simp only [sampleGo, if_neg hn]
      set x := uniformDraw g.minx g.maxx (stream (2 * a)) with hx
      set y := uniformDraw g.miny g.maxy (stream (2 * a + 1)) with hy
      set acc2 := if g.containsB (x, y) then (x, y) :: acc else acc with hacc2
      have h2 : acc2.length ≤ n := by
        rw [hacc2]
        by_cases hc : g.containsB (x, y) = true
        · simpa [hc] using hacc
        · simp only [hc, if_false]
          exact hle
      have := ih (a + 1) acc2 h2
      refine ⟨?_, this.2.1, ?_, this.2.2.2⟩
      · calc (sampleGo g n stream fuel (a + 1) acc2).2 ≤ a + 1 + fuel := this.1
          _ = a + (fuel + 1) := by omega
      · intro hlt
        calc (sampleGo g n stream fuel (a + 1) acc2).2 = a + 1 + fuel := this.2.2.1 hlt
          _ = a + (fuel + 1) := by omega

lemma sampleGo_accepted (g : Geom) (n : Nat) (stream : Nat → ℚ) :
    ∀ (fuel a : Nat) (acc : List (ℚ × ℚ)), (∀ p ∈ acc, g.containsB p = true) →
      ∀ p ∈ (sampleGo g n stream fuel a acc).1, g.containsB p = true := by
  intro fuel
  induction fuel with
  | zero =>
    intro a acc hacc p hp
    simp only [sampleGo, List.mem_reverse] at hp
    exact hacc p hp
  | succ fuel ih =>
    intro a acc hacc p hp
    by_cases hn : n ≤ acc.length
    · simp only [sampleGo, if_pos hn, List.mem_reverse] at hp
      exact hacc p hp
    · simp only [sampleGo, if_neg hn] at hp
      set x := uniformDraw g.minx g.maxx (stream (2 * a)) with hx
      set y := uniformDraw g.miny g.maxy (stream (2 * a + 1)) with hy
      by_cases hc : g.containsB (x, y) = true
      · refine ih (a + 1) _ ?_ p (by simpa [hc] using hp)
        intro q hq
        rcases List.mem_cons.mp hq with h | h
        · rw [h]; exact hc
        · exact hacc q h
      · refine ih (a + 1) _ ?_ p (by simpa [hc] using hp)
        intro q hq
        exact hacc q hq

/-- C4.  Sampler determinism: two invocations of
`generate_random_points_in_geom` with identical region, target count, seed
and attempt factor produce the identical ordered output, because the
modelled generator state is a pure function of the seed and the loop has
no other source of variation. -/
theorem sampler_deterministic (g : Geom) (n f s1 s2 : Nat) (h : s1 = s2) :
    generate_random_points_in_geom g n s1 f = generate_random_points_in_geom g n s2 f := by
  rw [h]

/-- Witness for C4 at a concrete region, count, seed and factor. -/
theorem sampler_deterministic_witness :
    (42 = 42) ∧
    generate_random_points_in_geom (build_allowed_zone (fun _ => true) [] 0 0 0 1 1) 10 42 500 =
      generate_random_points_in_geom (build_allowed_zone (fun _ => true) [] 0 0 0 1 1) 10 42 500 :=
  ⟨rfl, sampler_deterministic (build_allowed_zone (fun _ => true) [] 0 0 0 1 1) 10 500 42 42 rfl⟩

/-- C5.  Sampler success/failure contract: the loop makes at most
`n * f` draws; a successful return carries exactly `n` points; the
insufficient-samples error reports strictly fewer points than requested
and the number of attempts made (the whole budget). -/
theorem sampler_contract (g : Geom) (n seed f : Nat) :
    (sampleGo g n (unitStream seed) (n * f) 0 []).2 ≤ n * f ∧
    (∀ l, generate_random_points_in_geom g n seed f = .ok l → l.length = n) ∧
    (∀ e, generate_random_points_in_geom g n seed f = .error e →
      e.obtained < n ∧ e.requested = n ∧ e.attempts = n * f) := by
  have h := sampleGo_spec g n (unitStream seed) (n * f) 0 [] (by simp)
  refine ⟨by simpa using h.1, ?_, ?_⟩
  · intro l hl
    unfold generate_random_points_in_geom at hl
    by_cases hlt : (sampleGo g n (unitStream seed) (n * f) 0 []).1.length < n
    · simp only [if_pos hlt] at hl
      exact Except.noConfusion hl
    · simp only [if_neg hlt] at hl
      cases hl
      exact h.2.2.2 (Nat.le_of_not_lt hlt)
  · intro e he
    unfold generate_random_points_in_geom at he
    by_cases hlt : (sampleGo g n (unitStream seed) (n * f) 0 []).1.length < n
    · simp only [if_pos hlt] at he
      cases he
      exact ⟨hlt, rfl, by simpa using h.2.2.1 hlt⟩
    · simp only [if_neg hlt] at he
      exact Except.noConfusion he

/-- Witness for C5: a degenerate one-point region succeeds with exactly
one point, and a region whose contains-test always fails errors out
reporting zero obtained and the whole budget of attempts. -/
theorem sampler_contract_witness :
    ((sampleGo (build_allowed_zone (fun _ => true) [] 0 0 0 0 0) 1 (unitStream 0) 1 0 []).2 ≤ 1) ∧
    [((0 : ℚ), (0 : ℚ))].length = 1 ∧
    ((0 : Nat) < 1 ∧ (1 : Nat) = 1 ∧ (2 : Nat) = 2) := by
  have hx : uniformDraw 0 0 (unitStream 0 0) = 0 := by unfold uniformDraw; ring
  have hy : uniformDraw 0 0 (unitStream 0 1) = 0 := by unfold uniformDraw; ring
  have h1 := (sampler_contract (build_allowed_zone (fun _ => true) [] 0 0 0 0 0) 1 0 1).1
  have h2 := (sampler_contract (build_allowed_zone (fun _ => true) [] 0 0 0 0 0) 1 0 1).2.1
    [((0 : ℚ), (0 : ℚ))] (by
      unfold generate_random_points_in_geom
      simp [sampleGo, hx, hy, build_allowed_zone])
  have h3 := (sampler_contract (build_allowed_zone (fun _ => false) [] 0 0 0 0 0) 1 0 2).2.2
    ⟨0, 1, 2⟩ (by
      unfold generate_random_points_in_geom
      simp [sampleGo, build_allowed_zone])
  exact ⟨by simp at h1; exact h1, h2, ⟨h3.1, h3.2.1, h3.2.2⟩⟩

/-- C6.  Sampler membership: every point a successful run returns passes
the strict-interior containment test of the eligible region, and since
that region is the AOI minus the closed buffer disks, every returned point
is inside the AOI and farther than the buffer radius from every exclusion
point. -/
theorem sampler_membership (aoiItr : ℚ × ℚ → Bool) (excl : List (ℚ × ℚ)) (buf : ℚ)
    (minx miny maxx maxy : ℚ) (n seed f : Nat) (l : List (ℚ × ℚ))
    (hok : generate_random_points_in_geom
      (build_allowed_zone aoiItr excl buf minx miny maxx maxy) n seed f = .ok l) :
    ∀ p ∈ l,
      (build_allowed_zone aoiItr excl buf minx miny maxx maxy).containsB p = true ∧
      aoiItr p = true ∧ ∀ e ∈ excl, buf * buf < dSq p e := by
  intro p hp
  set g := build_allowed_zone aoiItr excl buf minx miny maxx maxy with hg
  have hmem : g.containsB p = true := by
    unfold generate_random_points_in_geom at hok
    by_cases hlt : (sampleGo g n (unitStream seed) (n * f) 0 []).1.length < n
    · simp only [if_pos hlt] at hok
      exact Except.noConfusion hok
    · simp only [if_neg hlt] at hok
      cases hok
      exact sampleGo_accepted g n (unitStream seed) (n * f) 0 [] (by simp) p hp
  refine ⟨hmem, ?_, ?_⟩
  · have := hmem
    simp only [hg, build_allowed_zone, Bool.and_eq_true] at this
    exact this.1
  · intro e he
    have := hmem
    simp only [hg, build_allowed_zone, Bool.and_eq_true, List.all_eq_true,
      decide_eq_true_eq] at this
    exact this.2 e he

/-- Witness for C6: a run over an AOI with one distant exclusion point
accepts the origin, which is in the region's interior, inside the AOI and
outside the buffer. -/
theorem sampler_membership_witness :
    ((build_allowed_zone (fun _ => true) [((5 : ℚ), (5 : ℚ))] 1 0 0 0 0).containsB (0, 0) = true) ∧
    ((fun (_ : ℚ × ℚ) => true) ((0 : ℚ), (0 : ℚ)) = true) ∧
    (∀ e ∈ [((5 : ℚ), (5 : ℚ))], (1 : ℚ) * 1 < dSq (0, 0) e) := by
  have hx : uniformDraw 0 0 (unitStream 0 0) = 0 := by unfold uniformDraw; ring
  have hy : uniformDraw 0 0 (unitStream 0 1) = 0 := by unfold uniformDraw; ring
  have h := sampler_membership (fun _ => true) [((5 : ℚ), (5 : ℚ))] 1 0 0 0 0 1 0 1
    [((0 : ℚ), (0 : ℚ))] (by
      unfold generate_random_points_in_geom
      simp [sampleGo, hx, hy, build_allowed_zone, dSq]
      norm_num) ((0 : ℚ), (0 : ℚ)) (by simp)
  exact ⟨h.1, h.2.1, h.2.2⟩

/-! ### Acquisition-date normalization (claim C10) -/

/-- C10.  For every behaviour of the external `pd.to_datetime` fallback,
`parse_dd_mm_yyyy` never turns a non-null value into null: null passes
through, and a stripped value accepted by none of the three strptime
day-first formats and on which the fallback raises is returned as the
stripped original string; consequently `ACQ_DATE_NORM` is null exactly
where `ACQ_DATE` was. -/
theorem acq_date_passthrough (fallback : PyStr → Option (Nat × Nat × Nat)) :
    parse_dd_mm_yyyy fallback none = none ∧
    (∀ v : PyStr, strpDMY '-' (stripWs v) = none → strpDMY '/' (stripWs v) = none →
      strpDMY '.' (stripWs v) = none → fallback (stripWs v) = none →
      parse_dd_mm_yyyy fallback (some v) = some (stripWs v)) ∧
    (∀ v : PyStr, (parse_dd_mm_yyyy fallback (some v)).isSome = true) ∧
    (∀ (col : List (Option PyStr)) (i : Nat),
      (normalize_acq_date fallback col).get? i =
        (col.get? i).map (parse_dd_mm_yyyy fallback)) := by
  refine ⟨rfl, ?_, ?_, ?_⟩
  · intro v h1 h2 h3 h4
    simp only [parse_dd_mm_yyyy, h1, h2, h3, h4]
  · intro v
    simp only [parse_dd_mm_yyyy]
    repeat' split
    all_goals simp
  · intro col i
    simp [normalize_acq_date, List.get?_eq_getElem?, List.getElem?_map]

/-- Witness for C10 at the concrete unparseable value `"13/25/2020"`
(month 25 fails every format) under a fallback that raises on everything:
the value survives as its stripped raw text. -/
theorem acq_date_passthrough_witness :
    parse_dd_mm_yyyy (fun _ => none) (some " 13/25/2020".data) =
      some (stripWs " 13/25/2020".data) :=
  (acq_date_passthrough (fun _ => none)).2.1 " 13/25/2020".data
    (by decide) (by decide) (by decide) rfl

/-! ### Output-path versioning (claim C9) -/

lemma natDigitsAux_eq_digits : ∀ (fuel n : Nat), n ≤ fuel → natDigitsAux fuel n = Nat.digits 10 n := by
  intro fuel
  induction fuel with
  | zero =>
    intro n hn
    interval_cases n
    rw [Nat.digits_zero]
    rfl
  | succ fuel ih =>
    intro n hn
    cases n with
    | zero =>
      rw [Nat.digits_zero]
      rfl
    | succ m =>
      rw [Nat.digits_def' (b := 10) (by norm_num) (Nat.succ_pos m)]
      unfold natDigitsAux
      rw [ih ((m + 1) / 10) (by omega)]

lemma natDigits_eq_digits (n : Nat) : natDigits n = Nat.digits 10 n :=
  natDigitsAux_eq_digits n n (Nat.le_refl n)

lemma digitChar_toNat {d : Nat} (hd : d < 10) : (Nat.digitChar d).toNat = 48 + d := by
  interval_cases d <;> rfl

lemma digitChar_inj {d1 d2 : Nat} (h1 : d1 < 10) (h2 : d2 < 10)
    (h : Nat.digitChar d1 = Nat.digitChar d2) : d1 = d2 := by
  have := congrArg Char.toNat h
  rw [digitChar_toNat h1, digitChar_toNat h2] at this
  omega

lemma map_digitChar_inj : ∀ (l1 l2 : List Nat), (∀ x ∈ l1, x < 10) → (∀ x ∈ l2, x < 10) →
    l1.map Nat.digitChar = l2.map Nat.digitChar → l1 = l2 := by
  intro l1
  induction l1 with
  | nil =>
    intro l2 _ _ h
    cases l2 with
    | nil => rfl
    | cons b t2 => simp at h
  | cons a t ih =>
    intro l2 h1 h2 h
    cases l2 with
    | nil => simp at h
    | cons b t2 =>
      simp only [List.map_cons, List.cons.injEq] at h
      have ha : a = b := digitChar_inj (h1 a (by simp)) (h2 b (by simp)) h.1
      have ht := ih t2 (fun x hx => h1 x (by simp [hx])) (fun x hx => h2 x (by simp [hx])) h.2
      rw [ha, ht]

lemma natStr_inj {m n : Nat} (h : natStr m = natStr n) : m = n := by
  unfold natStr at h
  rw [natDigits_eq_digits, natDigits_eq_digits] at h
  by_cases hm : m = 0 <;> by_cases hn : n = 0
  · omega
  · exfalso
    rw [if_pos hm, if_neg hn] at h
    have h2 := congrArg List.reverse h
    simp only [List.reverse_reverse] at h2
    have h3 : [(0 : Nat)].map Nat.digitChar = (Nat.digits 10 n).map Nat.digitChar := by
      simpa using h2
    have h4 := map_digitChar_inj [0] (Nat.digits 10 n) (by simp)
      (fun x hx => Nat.digits_lt_base (by norm_num) hx) h3
    have h5 : n = Nat.ofDigits 10 (Nat.digits 10 n) := (Nat.ofDigits_digits 10 n).symm
    rw [← h4] at h5
    simp [Nat.ofDigits_cons, Nat.ofDigits_nil] at h5
    exact hn h5
  · exfalso
    rw [if_neg hm, if_pos hn] at h
    have h2 := congrArg List.reverse h
    simp only [List.reverse_reverse] at h2
    have h3 : (Nat.digits 10 m).map Nat.digitChar = [(0 : Nat)].map Nat.digitChar := by
      simpa using h2
    have h4 := map_digitChar_inj (Nat.digits 10 m) [0]
      (fun x hx => Nat.digits_lt_base (by norm_num) hx) (by simp) h3
    have h5 : m = Nat.ofDigits 10 (Nat.digits 10 m) := (Nat.ofDigits_digits 10 m).symm
    rw [h4] at h5
    simp [Nat.ofDigits_cons, Nat.ofDigits_nil] at h5
    exact hm h5
  · rw [if_neg hm, if_neg hn] at h
    have h2 := congrArg List.reverse h
    simp only [List.reverse_reverse] at h2
    have h3 := map_digitChar_inj (Nat.digits 10 m) (Nat.digits 10 n)
      (fun x hx => Nat.digits_lt_base (by norm_num) hx)
      (fun x hx => Nat.digits_lt_base (by norm_num) hx) h2
    exact Nat.digits.injective 10 h3

lemma natStr_ne_nil (n : Nat) : natStr n ≠ [] := by
  unfold natStr
  rw [natDigits_eq_digits]
  split
  · simp
  · simp only [ne_eq, List.reverse_eq_nil_iff, List.map_eq_nil_iff,
      Nat.digits_eq_nil_iff_eq_zero]
    assumption

lemma getLast?_map_general {α β : Type} (f : α → β) :
    ∀ l : List α, (l.map f).getLast? = (l.getLast?).map f := by
  intro l
  induction l with
  | nil => rfl
  | cons a t ih =>
    cases t with
    | nil => rfl
    | cons b t2 => simpa [List.getLast?_cons_cons] using ih

lemma natStr_head_ne_zero {n : Nat} (hn : n ≠ 0) {c : Char}
    (hc : (natStr n).head? = some c) : c ≠ '0' := by
  unfold natStr at hc
  rw [natDigits_eq_digits, if_neg hn, List.head?_reverse, getLast?_map_general] at hc
  have hnil : Nat.digits 10 n ≠ [] := by
    simp [Nat.digits_eq_nil_iff_eq_zero]
    exact hn
  rw [List.getLast?_eq_getLast _ hnil] at hc
  simp only [Option.map_some', Option.some.injEq] at hc
  set d := (Nat.digits 10 n).getLast hnil with hd
  have hdne : d ≠ 0 := Nat.getLast_digit_ne_zero 10 hn
  have hdlt : d < 10 := Nat.digits_lt_base (by norm_num) (List.getLast_mem hnil)
  intro hcon
  rw [← hc] at hcon
  have := congrArg Char.toNat hcon
  rw [digitChar_toNat hdlt] at this
  have h0 : ('0' : Char).toNat = 48 := rfl
  rw [h0] at this
  omega

lemma pad3_length (n : Nat) : (pad3 n).length = max 3 (natStr n).length := by
  simp only [pad3, List.length_append, List.length_replicate]
  omega

lemma pad3_le_aux {m n : Nat} (hn : n ≠ 0)
    (hlen : (natStr m).length ≤ (natStr n).length) (h : pad3 m = pad3 n) :
    natStr m = natStr n := by
  by_cases hb : (natStr n).length ≤ 3
  · have hsplit : List.replicate (3 - (natStr m).length) '0' =
        List.replicate (3 - (natStr n).length) '0' ++
          List.replicate ((natStr n).length - (natStr m).length) '0' := by
      rw [← List.replicate_add]
      congr 1
      omega
    unfold pad3 at h
    rw [hsplit, List.append_assoc] at h
    have h2 := List.append_cancel_left h
    by_cases hba : (natStr n).length = (natStr m).length
    · rw [hba] at h2
      simpa using h2
    · exfalso
      have hlt : (natStr m).length < (natStr n).length := by omega
      have hpos : (natStr n).length - (natStr m).length ≠ 0 := by omega
      have hhead : (natStr n).head? = some '0' := by
        rw [← h2]
        cases hrep : List.replicate ((natStr n).length - (natStr m).length) '0' with
        | nil =>
          exfalso
          have := congrArg List.length hrep
          simp at this
          omega
        | cons x t =>
          have hx : x = '0' := by
            have : x ∈ List.replicate ((natStr n).length - (natStr m).length) '0' := by
              rw [hrep]; simp
            exact List.eq_of_mem_replicate this
          simp [hx]
      exact natStr_head_ne_zero hn hhead rfl
  · have hab : (natStr m).length = (natStr n).length := by
      have := congrArg List.length h
      rw [pad3_length, pad3_length] at this
      omega
    unfold pad3 at h
    rw [hab] at h
    exact List.append_cancel_left h

lemma pad3_inj {m n : Nat} (hm : m ≠ 0) (hn : n ≠ 0) (h : pad3 m = pad3 n) : m = n := by
  rcases le_total (natStr m).length (natStr n).length with hle | hle
  · exact natStr_inj (pad3_le_aux hn hle h)
  · exact (natStr_inj (pad3_le_aux hm hle h.symm)).symm

lemma splitext_append (p : PyStr) : (splitext p).1 ++ (splitext p).2 = p := by
  unfold splitext
  rcases lastIdxOf '.' p with _ | d
  · simp
  · dsimp only
    split
    · exact List.take_append_drop d p
    · simp

lemma shpCandidate_length (p : PyStr) (v : Nat) :
    (shpCandidate p v).length = p.length + 2 + (pad3 v).length := by
  have h := congrArg List.length (splitext_append p)
  simp only [List.length_append] at h
  simp only [shpCandidate, List.length_append, List.length_cons]
  omega

lemma shpCandidate_ne_self (p : PyStr) (v : Nat) : shpCandidate p v ≠ p := by
  intro h
  have := congrArg List.length h
  rw [shpCandidate_length] at this
  have h3 := pad3_length v
  omega

lemma shpCandidate_inj (p : PyStr) {v1 v2 : Nat} (h1 : v1 ≠ 0) (h2 : v2 ≠ 0)
    (h : shpCandidate p v1 = shpCandidate p v2) : v1 = v2 := by
  unfold shpCandidate at h
  rw [List.append_assoc, List.append_assoc] at h
  have h3 := List.append_cancel_left h
  simp only [List.cons_append, List.cons.injEq, true_and] at h3
  exact pad3_inj h1 h2 (List.append_cancel_right h3)

lemma underscoreCandidate_length (p : PyStr) (k : Nat) :
    (underscoreCandidate p k).length = p.length + 1 + (natStr k).length := by
  have h := congrArg List.length (splitext_append p)
  simp only [List.length_append] at h
  simp only [underscoreCandidate, List.length_append, List.length_cons]
  omega

lemma underscoreCandidate_ne_self (p : PyStr) (k : Nat) : underscoreCandidate p k ≠ p := by
  intro h
  have := congrArg List.length h
  rw [underscoreCandidate_length] at this
  have h3 : natStr k ≠ [] := natStr_ne_nil k
  have h4 : 0 < (natStr k).length := List.length_pos_of_ne_nil h3
  omega

lemma underscoreCandidate_inj (p : PyStr) {k1 k2 : Nat}
    (h : underscoreCandidate p k1 = underscoreCandidate p k2) : k1 = k2 := by
  unfold underscoreCandidate at h
  rw [List.append_assoc, List.append_assoc] at h
  have h3 := List.append_cancel_left h
  simp only [List.cons_append, List.cons.injEq, true_and] at h3
  exact natStr_inj (List.append_cancel_right h3)

lemma exists_free_candidate (store : List PyStr) (f : Nat → PyStr)
    (hinj : ∀ i j, i ∈ List.range (store.length + 1) → j ∈ List.range (store.length + 1) →
      f i = f j → i = j) :
    ∃ m ∈ List.range (store.length + 1), f m ∉ store := by
  by_contra hcon
  push_neg at hcon
  have hnodup : ((List.range (store.length + 1)).map f).Nodup := by
    rw [List.nodup_map_iff_inj_on (List.nodup_range _)]
    exact fun x hx y hy => hinj x y hx hy
  have hsub : ((List.range (store.length + 1)).map f).toFinset ⊆ store.toFinset := by
    intro x hx
    simp only [List.mem_toFinset, List.mem_map] at hx ⊢
    obtain ⟨m, hm, rfl⟩ := hx
    exact hcon m hm
  have hcard1 : ((List.range (store.length + 1)).map f).toFinset.card = store.length + 1 := by
    rw [List.toFinset_card_of_nodup hnodup]
    simp
  have hcard2 := Finset.card_le_card hsub
  have hcard3 := store.toFinset_card_le
  omega

lemma probe_resolves (store : List PyStr) (p : PyStr) (cand : Nat → PyStr) (start : Nat)
    (hstart : start ≠ 0)
    (hinj : ∀ i j, i ≠ 0 → j ≠ 0 → cand i = cand j → i = j)
    (hne : ∀ v, v ≠ 0 → cand v ≠ p) :
    ((if p ∈ store then
        match ((List.range (store.length + 1)).map (fun m => start + m)).find?
            (fun v => decide (cand v ∉ store)) with
        | some v => cand v
        | none => p
      else p) = p ↔ p ∉ store) ∧
    (p ∈ store → ∃ v, start ≤ v ∧
      (if p ∈ store then
        match ((List.range (store.length + 1)).map (fun m => start + m)).find?
            (fun v => decide (cand v ∉ store)) with
        | some v => cand v
        | none => p
      else p) = cand v ∧ cand v ∉ store ∧
      ∀ u, start ≤ u → u < v → cand u ∈ store) := by
  by_cases hp : p ∈ store
  · obtain ⟨m0, hm0, hfree⟩ := exists_free_candidate store (fun m => cand (start + m))
      (fun i j _ _ hij => by
        have := hinj (start + i) (start + j) (by omega) (by omega) hij
        omega)
    have hfind : ∀ r, ((List.range (store.length + 1)).map (fun m => start + m)).find?
        (fun v => decide (cand v ∉ store)) = r → r ≠ none := by
      intro r hr hnone
      rw [hnone, List.find?_eq_none] at hr
      have := hr (start + m0) (List.mem_map.mpr ⟨m0, hm0, rfl⟩)
      simp only [decide_eq_true_eq] at this
      exact this hfree
    cases hfd : ((List.range (store.length + 1)).map (fun m => start + m)).find?
        (fun v => decide (cand v ∉ store)) with
    | none => exact absurd rfl (hfind none hfd)
    | some v =>
      rw [List.find?_eq_some] at hfd
      obtain ⟨hpv, as, bs, hsplit, has⟩ := hfd
      have hvfree : cand v ∉ store := of_decide_eq_true hpv
      have hv_mem : v ∈ (List.range (store.length + 1)).map (fun m => start + m) := by
        rw [hsplit]
        simp
      obtain ⟨mv, hmv, hveq⟩ := List.mem_map.mp hv_mem
      have hvge : start ≤ v := by omega
      have hmin : ∀ u, start ≤ u → u < v → cand u ∈ store := by
        intro u hu1 hu2
        have hu_mem : u ∈ (List.range (store.length + 1)).map (fun m => start + m) := by
          refine List.mem_map.mpr ⟨u - start, ?_, by omega⟩
          rw [List.mem_range] at hmv ⊢
          omega
        have hpair : ((List.range (store.length + 1)).map (fun m => start + m)).Pairwise (· < ·) :=
          (List.pairwise_lt_range _).map _ (fun a b hab => by omega)
        rw [hsplit] at hu_mem hpair
        rw [List.pairwise_append] at hpair
        rcases List.mem_append.mp hu_mem with hin | hin
        · have hfalse : decide (cand u ∉ store) = false := by simpa using has u hin
          exact not_not.mp (of_decide_eq_false hfalse)
        · exfalso
          rcases List.mem_cons.mp hin with rfl | hin
          · omega
          · have := (List.pairwise_cons.mp hpair.2.1).1 u hin
            omega
      refine ⟨⟨fun hres => ?_, fun hnot => absurd hp hnot⟩, fun _ => ⟨v, hvge, ?_, hvfree, hmin⟩⟩
      · exfalso
        rw [if_pos hp] at hres
        exact hne v (by omega) hres
      · rw [if_pos hp]
  · rw [if_neg hp]
    exact ⟨⟨fun _ => hp, fun _ => rfl⟩, fun hcon => absurd hcon hp⟩

/-- C9.  Versioned output path resolution, for both numbering schemes: the
resolver returns the path unchanged iff it does not exist in the store;
otherwise it returns the first candidate of its numbering sequence that
does not exist — v002, v003, and so on for the merge writer, 1, 2, and so
on for the matcher/sampler writers — with the marker inserted before the
extension. -/
theorem versioned_path_resolution (store : List PyStr) (p : PyStr) :
    (next_version_path store p = p ↔ p ∉ store) ∧
    (p ∈ store → ∃ v, 2 ≤ v ∧ next_version_path store p = shpCandidate p v ∧
      shpCandidate p v ∉ store ∧ ∀ u, 2 ≤ u → u < v → shpCandidate p u ∈ store) ∧
    (next_version_path_suffix_1 store p = p ↔ p ∉ store) ∧
    (p ∈ store → ∃ k, 1 ≤ k ∧ next_version_path_suffix_1 store p = underscoreCandidate p k ∧
      underscoreCandidate p k ∉ store ∧
      ∀ u, 1 ≤ u → u < k → underscoreCandidate p u ∈ store) := by
  have h1 := probe_resolves store p (shpCandidate p) 2 (by omega)
    (fun i j hi hj hij => shpCandidate_inj p hi hj hij)
    (fun v _ => shpCandidate_ne_self p v)
  have h2 := probe_resolves store p (underscoreCandidate p) 1 (by omega)
    (fun i j _ _ hij => underscoreCandidate_inj p hij)
    (fun v _ => underscoreCandidate_ne_self p v)
  exact ⟨h1.1, h1.2, h2.1, h2.2⟩

/-- Witness for C9: the example of the spec with an existing path and its
v002 already taken resolves to v003, and an absent path is unchanged. -/
theorem versioned_path_resolution_witness :
    ("out.shp".data ∈ ["out.shp".data, "out_v002.shp".data]) ∧
    next_version_path ["out.shp".data, "out_v002.shp".data] "out.shp".data =
      shpCandidate "out.shp".data 3 ∧
    next_version_path_suffix_1 [] "o.shp".data = "o.shp".data := by
  have h := (versioned_path_resolution ["out.shp".data, "out_v002.shp".data] "out.shp".data).2.1
    (by decide)
  obtain ⟨v, hv2, hres, hfree, hmin⟩ := h
  have hv3 : v = 3 := by
    by_cases hv : v = 2
    · exfalso
      rw [hv] at hfree
      exact hfree (by decide)
    · by_cases hv' : v = 3
      · exact hv'
      · exfalso
        have := hmin 3 (by omega) (by omega)
        exact absurd this (by decide)
  rw [hv3] at hres
  refine ⟨by decide, hres, ?_⟩
  exact ((versioned_path_resolution [] "o.shp".data).2.2.1).mpr (by decide)

/-! ### Deduplicating merge (claim C3) -/

lemma fdbAux_sublist {α κ : Type} [DecidableEq κ] (keyOf : α → κ) :
    ∀ (seen : List κ) (l : List α), (fdbAux keyOf seen l).Sublist l := by
  intro seen l
  induction l generalizing seen with
  | nil => simp [fdbAux]
  | cons a t ih =>
    unfold fdbAux
    split
    · exact (ih seen).cons a
    · exact (ih (keyOf a :: seen)).cons₂ a

lemma fdbAux_keys {α κ : Type} [DecidableEq κ] (keyOf : α → κ) :
    ∀ (seen : List κ) (l : List α) (r : α), r ∈ fdbAux keyOf seen l → keyOf r ∉ seen := by
  intro seen l
  induction l generalizing seen with
  | nil => simp [fdbAux]
  | cons a t ih =>
    intro r hr
    unfold fdbAux at hr
    split at hr
    · exact ih seen r hr
    · rcases List.mem_cons.mp hr with rfl | hr2
      · assumption
      · have := ih (keyOf a :: seen) r hr2
        exact fun hcon => this (List.mem_cons_of_mem _ hcon)

lemma fdbAux_nodup_keys {α κ : Type} [DecidableEq κ] (keyOf : α → κ) :
    ∀ (seen : List κ) (l : List α), ((fdbAux keyOf seen l).map keyOf).Nodup := by
  intro seen l
  induction l generalizing seen with
  | nil => simp [fdbAux]
  | cons a t ih =>
    unfold fdbAux
    split
    · exact ih seen
    · simp only [List.map_cons, List.nodup_cons]
      refine ⟨?_, ih (keyOf a :: seen)⟩
      intro hcon
      obtain ⟨r, hr, hkr⟩ := List.mem_map.mp hcon
      exact fdbAux_keys keyOf _ _ r hr (by rw [hkr]; simp)

lemma fdbAux_covers {α κ : Type} [DecidableEq κ] (keyOf : α → κ) :
    ∀ (seen : List κ) (l : List α) (r : α), r ∈ l → keyOf r ∉ seen →
      ∃ s ∈ fdbAux keyOf seen l, keyOf s = keyOf r := by
  intro seen l
  induction l generalizing seen with
  | nil => simp
  | cons a t ih =>
    intro r hr hseen
    unfold fdbAux
    by_cases ha : keyOf a ∈ seen
    · rw [if_pos ha]
      rcases List.mem_cons.mp hr with rfl | hr2
      · exact absurd ha hseen
      · exact ih seen r hr2 hseen
    · rw [if_neg ha]
      by_cases hk : keyOf r = keyOf a
      · exact ⟨a, by simp, hk.symm⟩
      · rcases List.mem_cons.mp hr with rfl | hr2
        · exact absurd rfl hk
        · obtain ⟨s, hs, hks⟩ := ih (keyOf a :: seen) r hr2
            (by simp [hseen]; exact fun hcon => hk hcon)
          exact ⟨s, List.mem_cons_of_mem _ hs, hks⟩

lemma fdbAux_head {α κ : Type} [DecidableEq κ] (keyOf : α → κ) :
    ∀ (seen : List κ) (l : List α) (s : α), s ∈ fdbAux keyOf seen l →
      (l.filter (fun r => keyOf r = keyOf s)).head? = some s := by
  intro seen l
  induction l generalizing seen with
  | nil => simp [fdbAux]
  | cons a t ih =>
    intro s hs
    unfold fdbAux at hs
    split at hs
    · rename_i ha
      have hns : keyOf s ≠ keyOf a := by
        intro hcon
        exact fdbAux_keys keyOf seen t s hs (hcon ▸ ha)
      rw [List.filter_cons]
      rw [if_neg (by simpa using fun hcon => hns hcon.symm)]
      exact ih seen s hs
    · rename_i ha
      rcases List.mem_cons.mp hs with rfl | hs2
      · rw [List.filter_cons, if_pos (by simp)]
        rfl
      · have hns : keyOf s ≠ keyOf a := by
          intro hcon
          exact fdbAux_keys keyOf _ t s hs2 (by rw [hcon]; simp)
        rw [List.filter_cons]
        rw [if_neg (by simpa using fun hcon => hns hcon.symm)]
        exact ih (keyOf a :: seen) s hs2

lemma firstDedupBy_head {α κ : Type} [DecidableEq κ] (keyOf : α → κ) (l : List α) (s : α)
    (hs : s ∈ firstDedupBy keyOf l) :
    (l.filter (fun r => keyOf r = keyOf s)).head? = some s :=
  fdbAux_head keyOf [] l s hs

lemma firstDedupBy_mem {α κ : Type} [DecidableEq κ] (keyOf : α → κ) (l : List α) (s : α)
    (hs : s ∈ firstDedupBy keyOf l) : s ∈ l :=
  (fdbAux_sublist keyOf [] l).mem hs

lemma firstDedupBy_nodup {α κ : Type} [DecidableEq κ] (keyOf : α → κ) (l : List α) :
    ((firstDedupBy keyOf l).map keyOf).Nodup :=
  fdbAux_nodup_keys keyOf [] l

lemma firstDedupBy_covers {α κ : Type} [DecidableEq κ] (keyOf : α → κ) (l : List α) (r : α)
    (hr : r ∈ l) : ∃ s ∈ firstDedupBy keyOf l, keyOf s = keyOf r :=
  fdbAux_covers keyOf [] l r hr (by simp)

/-- C3 (amended).  The deduplicating merge: ranks are 0 exactly for
records whose instrument matches the preferred value case-insensitively;
and for every admissible result of the (unstable, single-column) sort by
rank, exactly one record per key survives, every input key is
represented, the dropped count is the input size minus the output size,
and each survivor is an input record of minimum rank within its key group
— so a rank-0 record wins a key whenever the group has one.  Which of
several equal-rank duplicates survives is left unspecified by the
program's quicksort (see the counterexample). -/
theorem dedup_prefer_instrument_amended {α κ : Type} [DecidableEq κ]
    (l : List α) (keyOf : α → κ) (instrOf : α → PyStr) (prefer : PyStr)
    (srt : List α) (hsort : isPrioritySort instrOf prefer l srt) :
    (∀ r ∈ l, (instrRank instrOf prefer r = 0 ↔ pyUpperStr (instrOf r) = pyUpperStr prefer)) ∧
    (deduplicate_prefer_instrument l keyOf srt).2 =
      l.length - (deduplicate_prefer_instrument l keyOf srt).1.length ∧
    ((deduplicate_prefer_instrument l keyOf srt).1.map keyOf).Nodup ∧
    (∀ r ∈ l, ∃ s ∈ (deduplicate_prefer_instrument l keyOf srt).1,
      keyOf s = keyOf r) ∧
    (∀ s ∈ (deduplicate_prefer_instrument l keyOf srt).1,
      s ∈ l ∧
      ∀ r ∈ l, keyOf r = keyOf s →
        instrRank instrOf prefer s ≤ instrRank instrOf prefer r) := by
  classical
  obtain ⟨hperm, hpw⟩ := hsort
  have hresult : deduplicate_prefer_instrument l keyOf srt =
      (firstDedupBy keyOf srt, l.length - (firstDedupBy keyOf srt).length) := rfl
  refine ⟨?_, ?_, ?_, ?_, ?_⟩
  · intro r _
    unfold instrRank
    split
    · simpa using ‹pyUpperStr (instrOf r) = pyUpperStr prefer›
    · simpa using ‹¬pyUpperStr (instrOf r) = pyUpperStr prefer›
  · rw [hresult]
  · rw [hresult]
    exact firstDedupBy_nodup keyOf srt
  · intro r hr
    rw [hresult]
    exact firstDedupBy_covers keyOf srt r (hperm.mem_iff.mpr hr)
  · intro s hs
    rw [hresult] at hs
    have hmem : s ∈ l := hperm.mem_iff.mp (firstDedupBy_mem keyOf srt s hs)
    have hhead := firstDedupBy_head keyOf srt s hs
    have hpwf : (srt.filter (fun r => keyOf r = keyOf s)).Pairwise
        (fun a b => instrRank instrOf prefer a ≤ instrRank instrOf prefer b) :=
      List.Pairwise.filter _ hpw
    refine ⟨hmem, ?_⟩
    intro r hr hkey
    have hrs : r ∈ srt.filter (fun r => keyOf r = keyOf s) :=
      List.mem_filter.mpr ⟨hperm.mem_iff.mpr hr, by simpa using hkey⟩
    cases hfe : srt.filter (fun r => keyOf r = keyOf s) with
    | nil => rw [hfe] at hrs; simp at hrs
    | cons a t =>
      rw [hfe] at hhead hrs hpwf
      simp only [List.head?_cons, Option.some.injEq] at hhead
      subst hhead
      rcases List.mem_cons.mp hrs with rfl | hrt
      · exact le_refl _
      · exact (List.pairwise_cons.mp hpwf).1 r hrt

/-- Counterexample to C3 as stated: the sort step is
`sort_values(by=["_priority"])` on one column, for which pandas uses
numpy's default quicksort, which is not stable — so "among same-rank
duplicates the first-encountered record survives" is not a guarantee of
the program.  Under the admissible rank-ordered arrangement that swaps
the two equal-rank records sharing key 1, the later-encountered record
`(1, 20)` survives instead of the first-encountered `(1, 10)` (which the
stable reading would keep). -/
theorem dedup_unstable_counterexample :
    isPrioritySort (fun _ : Nat × Nat => "VIIRS".data) "MODIS".data
      [(1, 10), (1, 20)] [(1, 20), (1, 10)] ∧
    (deduplicate_prefer_instrument [((1 : Nat), (10 : Nat)), (1, 20)] Prod.fst
      [(1, 20), (1, 10)]).1 = [(1, 20)] ∧
    firstDedupBy Prod.fst [((1 : Nat), (10 : Nat)), (1, 20)] = [(1, 10)] ∧
    ((1, 20) : Nat × Nat) ≠ (1, 10) := by
  refine ⟨⟨List.Perm.swap (1, 10) (1, 20) [], by decide⟩, by decide, by decide, by decide⟩

/-- Witness for the amended C3 at the example of the spec: dedup key is
the first component, preferred instrument MODIS, and the admissible sort
is instantiated with a concrete rank-ordered arrangement; the rank-0
MODIS record wins key A, one record is dropped, and every survivor has
minimum rank in its key group. -/
theorem dedup_prefer_instrument_amended_witness :
    isPrioritySort (fun r : String × String => r.2.data) "MODIS".data
      [(("A" : String), ("VIIRS" : String)), ("A", "MODIS"), ("B", "MODIS")]
      [(("A" : String), ("MODIS" : String)), ("B", "MODIS"), ("A", "VIIRS")] ∧
    deduplicate_prefer_instrument
      [(("A" : String), ("VIIRS" : String)), ("A", "MODIS"), ("B", "MODIS")] Prod.fst
      [(("A" : String), ("MODIS" : String)), ("B", "MODIS"), ("A", "VIIRS")] =
      ([("A", "MODIS"), ("B", "MODIS")], 1) ∧
    ∀ s ∈ (deduplicate_prefer_instrument
        [(("A" : String), ("VIIRS" : String)), ("A", "MODIS"), ("B", "MODIS")] Prod.fst
        [(("A" : String), ("MODIS" : String)), ("B", "MODIS"), ("A", "VIIRS")]).1,
      s ∈ [(("A" : String), ("VIIRS" : String)), ("A", "MODIS"), ("B", "MODIS")] ∧
      ∀ r ∈ [(("A" : String), ("VIIRS" : String)), ("A", "MODIS"), ("B", "MODIS")],
        Prod.fst r = Prod.fst s →
          instrRank (fun r : String × String => r.2.data) "MODIS".data s ≤
            instrRank (fun r : String × String => r.2.data) "MODIS".data r := by
  have hsort : isPrioritySort (fun r : String × String => r.2.data) "MODIS".data
      [(("A" : String), ("VIIRS" : String)), ("A", "MODIS"), ("B", "MODIS")]
      [(("A" : String), ("MODIS" : String)), ("B", "MODIS"), ("A", "VIIRS")] := by
    constructor
    · have h1 : [(("A" : String), ("MODIS" : String)), ("B", "MODIS"), ("A", "VIIRS")].Perm
          [(("A" : String), ("MODIS" : String)), ("A", "VIIRS"), ("B", "MODIS")] := by
        refine List.Perm.cons _ (List.Perm.swap _ _ _)
      have h2 : [(("A" : String), ("MODIS" : String)), ("A", "VIIRS"), ("B", "MODIS")].Perm
          [(("A" : String), ("VIIRS" : String)), ("A", "MODIS"), ("B", "MODIS")] :=
        List.Perm.swap _ _ _
      exact h1.trans h2
    · decide
  refine ⟨hsort, by decide, (dedup_prefer_instrument_amended
    [(("A" : String), ("VIIRS" : String)), ("A", "MODIS"), ("B", "MODIS")] Prod.fst
    (fun r : String × String => r.2.data) "MODIS".data
    [(("A" : String), ("MODIS" : String)), ("B", "MODIS"), ("A", "VIIRS")] hsort).2.2.2.2⟩

/-! ### Matching core (claims C1, C2, C7) -/

instance candLE_total : IsTotal Candidate (fun a b => candLEb a b = true) := by
  constructor
  intro a b
  simp only [candLEb, Bool.or_eq_true, decide_eq_true_eq, Bool.and_eq_true, beq_iff_eq]
  rcases Nat.lt_trichotomy a.idx b.idx with h | h | h
  · exact Or.inl (Or.inl h)
  · have habs : absLEb (dayDiffAbs a) (dayDiffAbs b) = true ∨
        absLEb (dayDiffAbs b) (dayDiffAbs a) = true := by
      cases dayDiffAbs a <;> cases dayDiffAbs b
      · simp [absLEb]
      · simp [absLEb]
      · simp [absLEb]
      · simpa [absLEb] using Int.le_total _ _
    rcases habs with hab | hab
    · exact Or.inl (Or.inr ⟨h, hab⟩)
    · exact Or.inr (Or.inr ⟨h.symm, hab⟩)
  · exact Or.inr (Or.inl h)

set_option linter.unnecessarySeqFocus false in
instance candLE_trans : IsTrans Candidate (fun a b => candLEb a b = true) := by
  constructor
  intro a b c hab hbc
  simp only [candLEb, Bool.or_eq_true, decide_eq_true_eq, Bool.and_eq_true,
    beq_iff_eq] at hab hbc ⊢
  rcases hab with hab | ⟨hab, habs⟩ <;> rcases hbc with hbc | ⟨hbc, hbcs⟩
  · exact Or.inl (by omega)
  · exact Or.inl (by omega)
  · exact Or.inl (by omega)
  · refine Or.inr ⟨by omega, ?_⟩
    cases ha : dayDiffAbs a <;> cases hb : dayDiffAbs b <;> cases hc : dayDiffAbs c <;>
      rw [ha, hb] at habs <;> rw [hb, hc] at hbcs <;> simp_all [absLEb] <;> omega

lemma dayDiff_isSome_iff (c : Candidate) :
    (dayDiff c).isSome = true ↔ c.fechaF.isSome = true ∧ c.fechaU.isSome = true := by
  unfold dayDiff
  cases c.fechaF <;> cases c.fechaU <;> simp

lemma dayDiffAbs_eq (c : Candidate) {d : Int} (h : dayDiff c = some d) :
    dayDiffAbs c = some |d| := by
  unfold dayDiffAbs
  rw [h]
  rfl

lemma dayDiffAbs_none (c : Candidate) (h : dayDiff c = none) : dayDiffAbs c = none := by
  unfold dayDiffAbs
  rw [h]
  rfl

lemma firstSome_cons_some {α : Type} (a : α) (l : List (Option α)) :
    firstSome (some a :: l) = some a := rfl

lemma firstSome_all_none {α : Type} :
    ∀ l : List (Option α), (∀ x ∈ l, x = none) → firstSome l = none := by
  intro l
  induction l with
  | nil => intro _; rfl
  | cons a t ih =>
    intro h
    have ha := h a (by simp)
    rw [ha]
    simpa [firstSome] using ih (fun x hx => h x (by simp [hx]))

lemma firstDedup_nodup {α : Type} [DecidableEq α] (l : List α) : (firstDedup l).Nodup := by
  have := firstDedupBy_nodup (id : α → α) l
  simpa using this

lemma firstDedup_mem {α : Type} [DecidableEq α] {l : List α} {x : α}
    (hx : x ∈ firstDedup l) : x ∈ l :=
  firstDedupBy_mem id l x hx

lemma firstDedup_covers {α : Type} [DecidableEq α] {l : List α} {x : α}
    (hx : x ∈ l) : x ∈ firstDedup l := by
  obtain ⟨s, hs, hks⟩ := firstDedupBy_covers (id : α → α) l x hx
  exact (show s = x from hks) ▸ hs

lemma filter_key_single {γ : Type} (g : γ → Nat) :
    ∀ (l : List γ), (l.map g).Nodup → ∀ i : Nat,
      l.filter (fun x => g x == i) = [] ∨
      ∃ r, l.filter (fun x => g x == i) = [r] ∧ g r = i := by
  intro l
  induction l with
  | nil => intro _ i; exact Or.inl rfl
  | cons a t ih =>
    intro hnd i
    simp only [List.map_cons, List.nodup_cons] at hnd
    rw [List.filter_cons]
    by_cases ha : g a == i
    · rw [if_pos (by simpa using ha)]
      have hta : t.filter (fun x => g x == i) = [] := by
        rw [List.filter_eq_nil_iff]
        intro x hx hcon
        apply hnd.1
        have : g x = i := by simpa using hcon
        have hgai : g a = i := by simpa using ha
        rw [← hgai] at this
        exact this ▸ List.mem_map_of_mem g hx
      rw [hta]
      exact Or.inr ⟨a, rfl, by simpa using ha⟩
    · rw [if_neg (by simpa using ha)]
      exact ih hnd.2 i

lemma flatMap_key_map {β γ : Type} (base : List β) (f : β → List γ) (g : γ → Nat)
    (key : β → Nat) (h : ∀ b ∈ base, (f b).map g = [key b]) :
    (base.flatMap f).map g = base.map key := by
  induction base with
  | nil => rfl
  | cons b t ih =>
    rw [List.flatMap_cons, List.map_append, List.map_cons,
      ih (fun x hx => h x (by simp [hx])), h b (by simp)]
    rfl

/-- C2.  Best-match selection and classification: for every point index
with at least one ranked candidate (both dates non-null), the selected
row carries a ranked candidate's event date and signed day difference
(point date minus event date), that candidate's absolute difference is
minimal among the point's ranked candidates, and the tier is `exacta` iff
the difference is zero, the w-day window label iff it is nonzero with
absolute value at most w, and `sin_coincidencia` otherwise. -/
theorem best_match_selection (merged : List Candidate) (w : Nat) (i : Nat)
    (hranked : ∃ c ∈ merged, c.idx = i ∧ (dayDiff c).isSome = true) :
    ∃ mr ∈ best_match_per_point merged w, mr.idx = i ∧
      ∃ g ∈ merged, g.idx = i ∧ ∃ d : Int, dayDiff g = some d ∧
        mr.fechaMatch = g.fechaU ∧ mr.difMin = some d ∧ mr.difAbs = some |d| ∧
        (∀ c ∈ merged, c.idx = i → ∀ e : Int, dayDiff c = some e → |d| ≤ |e|) ∧
        mr.tipo = (if d = 0 then tierExacta
          else if |d| ≤ (w : Int) then tierWindow w else tierNone) := by
  obtain ⟨c0, hc0mem, hc0idx, hc0rk⟩ := hranked
  have hc0U : c0.fechaU.isSome = true := ((dayDiff_isSome_iff c0).mp hc0rk).2
  have hc0valid : c0 ∈ merged.filter (fun c => c.fechaU.isSome) :=
    List.mem_filter.mpr ⟨hc0mem, hc0U⟩
  have hvne : (merged.filter (fun c => c.fechaU.isSome)).isEmpty = false := by
    cases hv : merged.filter (fun c => c.fechaU.isSome) with
    | nil => rw [hv] at hc0valid; simp at hc0valid
    | cons x xs => rfl
  have hbm : best_match_per_point merged w =
      (firstDedup (((merged.filter (fun c => c.fechaU.isSome)).insertionSort
          (fun a b => candLEb a b = true)).map (fun c => c.idx))).map (fun j =>
        let grp := ((merged.filter (fun c => c.fechaU.isSome)).insertionSort
          (fun a b => candLEb a b = true)).filter (fun c => c.idx == j)
        let dm := firstSome (grp.map dayDiff)
        let da := firstSome (grp.map dayDiffAbs)
        let fm := firstSome (grp.map (fun c => c.fechaU))
        let exacta := dm == some 0
        let ventana := !exacta && (match da with
          | some d => decide (d ≤ (w : Int))
          | none => false)
        ⟨j, fm, dm, da,
          if exacta then tierExacta
          else if ventana then tierWindow w
          else tierNone⟩) := by
    unfold best_match_per_point
    simp only [hvne, Bool.false_eq_true, if_false]
  have hperm : List.Perm ((merged.filter (fun c => c.fechaU.isSome)).insertionSort
      (fun a b => candLEb a b = true)) (merged.filter (fun c => c.fechaU.isSome)) :=
    List.perm_insertionSort _ _
  have hsort : ((merged.filter (fun c => c.fechaU.isSome)).insertionSort
      (fun a b => candLEb a b = true)).Pairwise (fun a b => candLEb a b = true) :=
    List.sorted_insertionSort _ _
  have hc0sorted : c0 ∈ (merged.filter (fun c => c.fechaU.isSome)).insertionSort
      (fun a b => candLEb a b = true) := hperm.mem_iff.mpr hc0valid
  have hikeys : i ∈ firstDedup (((merged.filter (fun c => c.fechaU.isSome)).insertionSort
      (fun a b => candLEb a b = true)).map (fun c => c.idx)) :=
    firstDedup_covers (List.mem_map.mpr ⟨c0, hc0sorted, hc0idx⟩)
  rw [hbm]
  refine ⟨_, List.mem_map.mpr ⟨i, hikeys, rfl⟩, ?_⟩
  have hc0grp : c0 ∈ ((merged.filter (fun c => c.fechaU.isSome)).insertionSort
      (fun a b => candLEb a b = true)).filter (fun c => c.idx == i) :=
    List.mem_filter.mpr ⟨hc0sorted, by simp [hc0idx]⟩
  cases hgrp : ((merged.filter (fun c => c.fechaU.isSome)).insertionSort
      (fun a b => candLEb a b = true)).filter (fun c => c.idx == i) with
  | nil => rw [hgrp] at hc0grp; simp at hc0grp
  | cons g t =>
    have hgrp_pw : (g :: t).Pairwise (fun a b => candLEb a b = true) := by
      rw [← hgrp]
      exact List.Pairwise.filter _ hsort
    have hgall : ∀ x ∈ g :: t,
        x ∈ merged ∧ x.fechaU.isSome = true ∧ x.idx = i := by
      intro x hx
      rw [← hgrp] at hx
      have hx1 := List.mem_filter.mp hx
      have hx2 := List.mem_filter.mp (hperm.mem_iff.mp hx1.1)
      exact ⟨hx2.1, hx2.2, by simpa using hx1.2⟩
    have hgmem := hgall g (by simp)
    -- the group's head is ranked
    have hgranked : (dayDiff g).isSome = true := by
      by_contra hcon
      have hgnone : dayDiff g = none := by
        cases hdg : dayDiff g
        · rfl
        · rw [hdg] at hcon; simp at hcon
      have hc0in : c0 = g ∨ c0 ∈ t := by
        rw [hgrp] at hc0grp
        exact List.mem_cons.mp hc0grp
      rcases hc0in with rfl | hc0t
      · rw [hgnone] at hc0rk; simp at hc0rk
      · have hle := (List.pairwise_cons.mp hgrp_pw).1 c0 hc0t
        simp only [candLEb, Bool.or_eq_true, decide_eq_true_eq, Bool.and_eq_true,
          beq_iff_eq] at hle
        have hgidx : g.idx = i := hgmem.2.2
        rcases hle with hlt | ⟨_, habs⟩
        · have h2 : c0.idx = i := hc0idx
          omega
        · rw [dayDiffAbs_none g hgnone] at habs
          obtain ⟨e, he⟩ := Option.isSome_iff_exists.mp hc0rk
          rw [dayDiffAbs_eq c0 he] at habs
          simp [absLEb] at habs
    obtain ⟨d, hd⟩ := Option.isSome_iff_exists.mp hgranked
    obtain ⟨fv, hfv⟩ := Option.isSome_iff_exists.mp hgmem.2.1
    have hda : dayDiffAbs g = some |d| := dayDiffAbs_eq g hd
    have hmin : ∀ c ∈ merged, c.idx = i → ∀ e : Int, dayDiff c = some e → |d| ≤ |e| := by
      intro c hcmem hcidx e he
      have hcU : c.fechaU.isSome = true :=
        ((dayDiff_isSome_iff c).mp (by rw [he]; rfl)).2
      have hcgrp : c ∈ g :: t := by
        rw [← hgrp]
        refine List.mem_filter.mpr ⟨hperm.mem_iff.mpr (List.mem_filter.mpr ⟨hcmem, hcU⟩),
          by simp [hcidx]⟩
      rcases List.mem_cons.mp hcgrp with rfl | hct
      · rw [hd] at he
        cases he
        exact le_refl _
      · have hle := (List.pairwise_cons.mp hgrp_pw).1 c hct
        simp only [candLEb, Bool.or_eq_true, decide_eq_true_eq, Bool.and_eq_true,
          beq_iff_eq] at hle
        rcases hle with hlt | ⟨_, habs⟩
        · have h1 : g.idx = i := hgmem.2.2
          have h2 : c.idx = i := hcidx
          omega
        · rw [hda, dayDiffAbs_eq c he] at habs
          simpa [absLEb] using habs
    simp only [hgrp]
    refine ⟨trivial, g, hgmem.1, hgmem.2.2, d, hd, ?_, ?_, ?_, hmin, ?_⟩
    · simp [hfv, firstSome]
    · simp [hd, firstSome]
    · simp [hda, firstSome]
    · simp only [List.map_cons, hd, hda, firstSome]
      by_cases hd0 : d = 0
      · simp [hd0, tierExacta]
      · by_cases hdw : |d| ≤ (w : Int)
        · simp [hd0, hdw]
        · simp [hd0, hdw]

/-- Witness for C2 at a single ranked candidate three days after the
event. -/
theorem best_match_selection_witness :
    ∃ mr ∈ best_match_per_point [(⟨0, some 10, some 7⟩ : Candidate)] 5, mr.idx = 0 ∧
      ∃ g ∈ [(⟨0, some 10, some 7⟩ : Candidate)], g.idx = 0 ∧
        ∃ d : Int, dayDiff g = some d ∧
          mr.fechaMatch = g.fechaU ∧ mr.difMin = some d ∧ mr.difAbs = some |d| ∧
          (∀ c ∈ [(⟨0, some 10, some 7⟩ : Candidate)], c.idx = 0 →
            ∀ e : Int, dayDiff c = some e → |d| ≤ |e|) ∧
          mr.tipo = (if d = 0 then tierExacta
            else if |d| ≤ ((5 : Nat) : Int) then tierWindow 5 else tierNone) :=
  best_match_selection [(⟨0, some 10, some 7⟩ : Candidate)] 5 0
    ⟨⟨0, some 10, some 7⟩, by decide, by decide, by decide⟩

lemma best_match_nodup (merged : List Candidate) (w : Nat) :
    ((best_match_per_point merged w).map (fun r => r.idx)).Nodup := by
  have key : ∀ (ids : List Nat) (f : Nat → MatchRow), (∀ j, (f j).idx = j) → ids.Nodup →
      ((ids.map f).map (fun r => r.idx)).Nodup := by
    intro ids f hf hnd
    rw [List.map_map]
    have hcomp : ((fun r : MatchRow => r.idx) ∘ f) = fun j => j := funext hf
    rw [hcomp, List.map_id']
    exact hnd
  unfold best_match_per_point
  dsimp only
  split
  · exact key _ _ (fun j => rfl) (firstDedup_nodup _)
  · exact key _ _ (fun j => rfl) (firstDedup_nodup _)

lemma attach_m_idx (pts : List FirmsPoint) (mrows : List MatchRow)
    (hnd : (mrows.map (fun r => r.idx)).Nodup) :
    (attach_m pts mrows).map (fun q => q.idx) = List.range pts.length := by
  unfold attach_m
  dsimp only
  rw [List.map_map]
  have hcomp : ((fun q : IdxMatchRow => q.idx) ∘
      (fun r : IdxMatchRow => { r with tipo := some (r.tipo.getD tierNone) })) =
      fun q : IdxMatchRow => q.idx := rfl
  rw [hcomp]
  refine flatMap_key_map _ _ _ (fun i => i) ?_ |>.trans (List.map_id _)
  intro i _
  rcases filter_key_single (fun r : MatchRow => r.idx) mrows hnd i with hf | ⟨r, hf, hri⟩
  · rw [hf]
    rfl
  · rw [hf]
    simp [hri]

lemma attach_m_content (pts : List FirmsPoint) (mrows : List MatchRow) :
    ∀ q ∈ attach_m pts mrows,
      q.idx < pts.length ∧
      (mrows.filter (fun r => r.idx == q.idx) = [] →
        q = ⟨q.idx, none, none, none, some tierNone⟩) ∧
      (∀ r, mrows.filter (fun r => r.idx == q.idx) = [r] →
        q = ⟨q.idx, r.fechaMatch, r.difMin, r.difAbs, some r.tipo⟩) := by
  intro q hq
  unfold attach_m at hq
  dsimp only at hq
  obtain ⟨q0, hq0, hfill⟩ := List.mem_map.mp hq
  obtain ⟨i, hi, hblock⟩ := List.mem_flatMap.mp hq0
  rw [List.mem_range] at hi
  by_cases hms : mrows.filter (fun r => r.idx == i) = []
  · rw [hms] at hblock
    simp only [List.isEmpty_nil, if_pos] at hblock
    have hq0v : q0 = ⟨i, none, none, none, none⟩ := by simpa using hblock
    have hqv : q = ⟨i, none, none, none, some tierNone⟩ := by
      rw [← hfill, hq0v]
      rfl
    have hqidx : q.idx = i := by rw [hqv]
    refine ⟨hqidx ▸ hi, fun _ => by rw [hqv], fun r hr => ?_⟩
    rw [hqidx] at hr
    rw [hms] at hr
    exact absurd hr (by simp)
  · have hne : (mrows.filter (fun r => r.idx == i)).isEmpty = false := by
      cases hc : mrows.filter (fun r => r.idx == i) with
      | nil => exact absurd hc hms
      | cons x xs => rfl
    rw [hne] at hblock
    simp only [Bool.false_eq_true, if_false] at hblock
    obtain ⟨r, hrmem, hrq0⟩ := List.mem_map.mp hblock
    have hri : r.idx = i := by simpa using (List.mem_filter.mp hrmem).2
    have hqv : q = ⟨i, r.fechaMatch, r.difMin, r.difAbs, some r.tipo⟩ := by
      rw [← hfill, ← hrq0, hri]
      rfl
    have hqidx : q.idx = i := by rw [hqv]
    refine ⟨hqidx ▸ hi, fun hcon => ?_, fun r2 hr2 => ?_⟩
    · rw [hqidx] at hcon
      rw [hcon] at hrmem
      exact absurd hrmem (by simp)
    · rw [hqidx] at hr2
      have : r ∈ [r2] := hr2 ▸ hrmem
      have hrr2 : r = r2 := by simpa using this
      rw [hqv, hrr2]

lemma attach_m_covers (pts : List FirmsPoint) (mrows : List MatchRow)
    (hnd : (mrows.map (fun r => r.idx)).Nodup) :
    ∀ i < pts.length, ∃ q ∈ attach_m pts mrows, q.idx = i := by
  intro i hi
  have : i ∈ (attach_m pts mrows).map (fun q => q.idx) := by
    rw [attach_m_idx pts mrows hnd]
    exact List.mem_range.mpr hi
  obtain ⟨q, hq, hqi⟩ := List.mem_map.mp this
  exact ⟨q, hq, hqi⟩

lemma attach_rows (pts : List FirmsPoint) (mrows : List MatchRow)
    (hnd : (mrows.map (fun r => r.idx)).Nodup) :
    (attach_matches pts mrows).map (fun r => r.idx) = List.range pts.length ∧
    ∀ r ∈ attach_matches pts mrows,
      (mrows.filter (fun mr => mr.idx == r.idx) = [] →
        r.tipo = some tierNone ∧ r.fechaMatch = none ∧ r.difMin = none ∧ r.difAbs = none) ∧
      (∀ mr, mrows.filter (fun m2 => m2.idx == r.idx) = [mr] →
        r.tipo = some mr.tipo ∧ r.fechaMatch = mr.fechaMatch ∧
        r.difMin = mr.difMin ∧ r.difAbs = mr.difAbs) := by
  have hmidx := attach_m_idx pts mrows hnd
  have hmnd : ((attach_m pts mrows).map (fun q => q.idx)).Nodup := by
    rw [hmidx]
    exact List.nodup_range _
  have hblock2 : ∀ pr ∈ pts.enum,
      ∃ q ∈ attach_m pts mrows, q.idx = pr.1 ∧
        (attach_m pts mrows).filter (fun r => r.idx == pr.1) = [q] := by
    intro pr hpr
    have hprlt : pr.1 < pts.length := by
      have : pr.1 ∈ (pts.enum.map Prod.fst) := List.mem_map_of_mem _ hpr
      rw [List.enum_map_fst] at this
      exact List.mem_range.mp this
    obtain ⟨q, hq, hqi⟩ := attach_m_covers pts mrows hnd pr.1 hprlt
    rcases filter_key_single (fun q : IdxMatchRow => q.idx) (attach_m pts mrows) hmnd pr.1
      with hf | ⟨q2, hf, hq2i⟩
    · exfalso
      have : q ∈ (attach_m pts mrows).filter (fun r => r.idx == pr.1) :=
        List.mem_filter.mpr ⟨hq, by simp [hqi]⟩
      rw [hf] at this
      simp at this
    · have hq2mem : q2 ∈ attach_m pts mrows := by
        have : q2 ∈ (attach_m pts mrows).filter (fun r => r.idx == pr.1) := by
          rw [hf]; simp
        exact (List.mem_filter.mp this).1
      exact ⟨q2, hq2mem, hq2i, hf⟩
  constructor
  · unfold attach_matches
    dsimp only
    refine (flatMap_key_map _ _ _ Prod.fst ?_).trans (List.enum_map_fst pts)
    intro pr hpr
    obtain ⟨q, hqmem, hqi, hf⟩ := hblock2 pr hpr
    rw [hf]
    have : ((attach_m pts mrows).filter (fun r => r.idx == pr.1)).isEmpty = false := by
      rw [hf]; rfl
    rw [hf] at this
    simp [this]
  · intro r hr
    unfold attach_matches at hr
    dsimp only at hr
    obtain ⟨pr, hpr, hrblock⟩ := List.mem_flatMap.mp hr
    obtain ⟨q, hqmem, hqi, hf⟩ := hblock2 pr hpr
    rw [hf] at hrblock
    simp only [List.isEmpty_cons, Bool.false_eq_true, if_false, List.map_cons,
      List.map_nil] at hrblock
    have hrv : r = ⟨pr.1, pr.2.fecha, pr.2.depto, pr.2.muni,
        q.fechaMatch, q.difMin, q.difAbs, q.tipo⟩ := by simpa using hrblock
    have hridx : r.idx = pr.1 := by rw [hrv]
    have hqc := attach_m_content pts mrows q hqmem
    constructor
    · intro hnil
      rw [hridx, ← hqi] at hnil
      have hqv := hqc.2.1 hnil
      rw [hrv, hqv]
      exact ⟨rfl, rfl, rfl, rfl⟩
    · intro mr hmr
      rw [hridx, ← hqi] at hmr
      have hqv := hqc.2.2 mr hmr
      rw [hrv, hqv]
      exact ⟨rfl, rfl, rfl, rfl⟩

/-- C1.  Left-join invariant of the match pipeline: attaching the match
results of the candidate table back onto the point set yields exactly one
output row per input point, in order (no point dropped or duplicated), and
any point with no match row carries tier `sin_coincidencia`. -/
theorem match_left_join_invariant (pts : List FirmsPoint) (events : List UngrdRow) (w : Nat) :
    (attach_matches pts (best_match_per_point (build_candidates pts events) w)).length =
      pts.length ∧
    (attach_matches pts (best_match_per_point (build_candidates pts events) w)).map
      (fun r => r.idx) = List.range pts.length ∧
    ∀ r ∈ attach_matches pts (best_match_per_point (build_candidates pts events) w),
      (∀ mr ∈ best_match_per_point (build_candidates pts events) w, mr.idx ≠ r.idx) →
      r.tipo = some tierNone := by
  have hnd := best_match_nodup (build_candidates pts events) w
  have h := attach_rows pts (best_match_per_point (build_candidates pts events) w) hnd
  refine ⟨?_, h.1, ?_⟩
  · have := congrArg List.length h.1
    rw [List.length_map, List.length_range] at this
    exact this
  · intro r hr hnomatch
    have hfil : (best_match_per_point (build_candidates pts events) w).filter
        (fun mr => mr.idx == r.idx) = [] := by
      rw [List.filter_eq_nil_iff]
      intro mr hmr
      simpa using hnomatch mr hmr
    exact ((h.2 r hr).1 hfil).1

/-- Witness for C1: two points, one with an administrative match and one
without; the unmatched point's row is present and carries
`sin_coincidencia`. -/
theorem match_left_join_invariant_witness :
    ((⟨0, some 1, some "X".data, some "B".data, none, none, none, some tierNone⟩ : OutRow) ∈
      attach_matches
        [⟨some "X".data, some "B".data, some 1⟩, ⟨some "A".data, some "B".data, some 1⟩]
        (best_match_per_point
          (build_candidates
            [⟨some "X".data, some "B".data, some 1⟩, ⟨some "A".data, some "B".data, some 1⟩]
            [⟨some "A".data, some "B".data, some 1⟩]) 5)) ∧
    (⟨0, some 1, some "X".data, some "B".data, none, none, none, some tierNone⟩ : OutRow).tipo =
      some tierNone := by
  refine ⟨by decide, ?_⟩
  exact (match_left_join_invariant
    [⟨some "X".data, some "B".data, some 1⟩, ⟨some "A".data, some "B".data, some 1⟩]
    [⟨some "A".data, some "B".data, some 1⟩] 5).2.2
    ⟨0, some 1, some "X".data, some "B".data, none, none, none, some tierNone⟩
    (by decide) (by decide)

lemma best_match_branch1 (merged : List Candidate) (w : Nat)
    (hv : (merged.filter (fun c => c.fechaU.isSome)).isEmpty = true) :
    best_match_per_point merged w =
      (firstDedup (merged.map (fun c => c.idx))).map
        (fun i => ⟨i, none, none, none, tierNone⟩) := by
  unfold best_match_per_point
  simp only [hv, if_true]

lemma best_match_branch2 (merged : List Candidate) (w : Nat)
    (hvne : (merged.filter (fun c => c.fechaU.isSome)).isEmpty = false) :
    best_match_per_point merged w =
      (firstDedup (((merged.filter (fun c => c.fechaU.isSome)).insertionSort
          (fun a b => candLEb a b = true)).map (fun c => c.idx))).map (fun j =>
        let grp := ((merged.filter (fun c => c.fechaU.isSome)).insertionSort
          (fun a b => candLEb a b = true)).filter (fun c => c.idx == j)
        let dm := firstSome (grp.map dayDiff)
        let da := firstSome (grp.map dayDiffAbs)
        let fm := firstSome (grp.map (fun c => c.fechaU))
        let exacta := dm == some 0
        let ventana := !exacta && (match da with
          | some d => decide (d ≤ (w : Int))
          | none => false)
        ⟨j, fm, dm, da,
          if exacta then tierExacta
          else if ventana then tierWindow w
          else tierNone⟩) := by
  unfold best_match_per_point
  simp only [hvne, Bool.false_eq_true, if_false]

lemma best_match_row_unranked (merged : List Candidate) (w i : Nat)
    (hnorank : ∀ c ∈ merged, c.idx = i →
      ¬(c.fechaF.isSome = true ∧ c.fechaU.isSome = true)) :
    ∀ mr ∈ best_match_per_point merged w, mr.idx = i →
      mr.difMin = none ∧ mr.difAbs = none ∧ mr.tipo = tierNone ∧
      ((∀ c ∈ merged, c.idx = i → c.fechaU = none) → mr.fechaMatch = none) := by
  intro mr hmr hmi
  by_cases hcase : (merged.filter (fun c => c.fechaU.isSome)).isEmpty = true
  · rw [best_match_branch1 merged w hcase] at hmr
    obtain ⟨j, _, hjr⟩ := List.mem_map.mp hmr
    rw [← hjr]
    exact ⟨rfl, rfl, rfl, fun _ => rfl⟩
  · have hvne : (merged.filter (fun c => c.fechaU.isSome)).isEmpty = false := by
      cases h : (merged.filter (fun c => c.fechaU.isSome)).isEmpty
      · rfl
      · exact absurd h hcase
    rw [best_match_branch2 merged w hvne] at hmr
    obtain ⟨j, hjkeys, hjr⟩ := List.mem_map.mp hmr
    have hji : j = i := by rw [← hmi, ← hjr]
    subst hji
    have hperm : List.Perm ((merged.filter (fun c => c.fechaU.isSome)).insertionSort
        (fun a b => candLEb a b = true)) (merged.filter (fun c => c.fechaU.isSome)) :=
      List.perm_insertionSort _ _
    have hjexists : ∃ g0, g0 ∈ ((merged.filter (fun c => c.fechaU.isSome)).insertionSort
        (fun a b => candLEb a b = true)) ∧ g0.idx = j := by
      have := firstDedup_mem hjkeys
      obtain ⟨g0, hg0, hg0i⟩ := List.mem_map.mp this
      exact ⟨g0, hg0, hg0i⟩
    obtain ⟨g0, hg0, hg0i⟩ := hjexists
    have hg0grp : g0 ∈ ((merged.filter (fun c => c.fechaU.isSome)).insertionSort
        (fun a b => candLEb a b = true)).filter (fun c => c.idx == j) :=
      List.mem_filter.mpr ⟨hg0, by simp [hg0i]⟩
    cases hgrp : ((merged.filter (fun c => c.fechaU.isSome)).insertionSort
        (fun a b => candLEb a b = true)).filter (fun c => c.idx == j) with
    | nil => rw [hgrp] at hg0grp; simp at hg0grp
    | cons g t =>
      have hgall : ∀ x ∈ g :: t, x ∈ merged ∧ x.fechaU.isSome = true ∧ x.idx = j := by
        intro x hx
        rw [← hgrp] at hx
        have hx1 := List.mem_filter.mp hx
        have hx2 := List.mem_filter.mp (hperm.mem_iff.mp hx1.1)
        exact ⟨hx2.1, hx2.2, by simpa using hx1.2⟩
      have hallnone : ∀ x ∈ g :: t, dayDiff x = none := by
        intro x hx
        have hxm := hgall x hx
        have := hnorank x hxm.1 hxm.2.2
        cases hxF : x.fechaF with
        | none => unfold dayDiff; rw [hxF]
        | some a =>
          exfalso
          exact this ⟨by rw [hxF]; rfl, hxm.2.1⟩
      have hdm : firstSome ((g :: t).map dayDiff) = none :=
        firstSome_all_none _ (by
          intro x hx
          obtain ⟨y, hy, hyx⟩ := List.mem_map.mp hx
          rw [← hyx, hallnone y hy])
      have hdab : firstSome ((g :: t).map dayDiffAbs) = none :=
        firstSome_all_none _ (by
          intro x hx
          obtain ⟨y, hy, hyx⟩ := List.mem_map.mp hx
          rw [← hyx, dayDiffAbs_none y (hallnone y hy)])
      rw [← hjr]
      simp only [hgrp, hdm, hdab]
      refine ⟨trivial, trivial, by rfl, fun hallU => ?_⟩
      exfalso
      have hgm := hgall g (by simp)
      have := hallU g hgm.1 hgm.2.2
      rw [this] at hgm
      simp at hgm

/-- C7 (amended).  For every point with no ranked candidate the attached
row has tier `sin_coincidencia` and null day differences; the matched
event date is null whenever the point has no candidate with a non-null
event date, but it can carry the first valid candidate's event date when
the point's own date is null (see the counterexample). -/
theorem unranked_rows_amended (pts : List FirmsPoint) (events : List UngrdRow)
    (w i : Nat)
    (hnorank : ∀ c ∈ build_candidates pts events, c.idx = i →
      ¬(c.fechaF.isSome = true ∧ c.fechaU.isSome = true)) :
    ∀ r ∈ attach_matches pts (best_match_per_point (build_candidates pts events) w),
      r.idx = i →
      r.tipo = some tierNone ∧ r.difMin = none ∧ r.difAbs = none ∧
      ((∀ c ∈ build_candidates pts events, c.idx = i → c.fechaU = none) →
        r.fechaMatch = none) := by
  intro r hr hri
  have hnd := best_match_nodup (build_candidates pts events) w
  have h := attach_rows pts (best_match_per_point (build_candidates pts events) w) hnd
  rcases filter_key_single (fun mr : MatchRow => mr.idx)
      (best_match_per_point (build_candidates pts events) w) hnd r.idx
    with hnil | ⟨mr, hmr, hmi⟩
  · have hc := (h.2 r hr).1 hnil
    exact ⟨hc.1, hc.2.2.1, hc.2.2.2, fun _ => hc.2.1⟩
  · have hc := (h.2 r hr).2 mr hmr
    have hmrmem : mr ∈ best_match_per_point (build_candidates pts events) w := by
      have : mr ∈ (best_match_per_point (build_candidates pts events) w).filter
          (fun m2 => m2.idx == r.idx) := by
        rw [hmr]; simp
      exact (List.mem_filter.mp this).1
    have hmridx : mr.idx = i := by rw [hmi, hri]
    have hrow := best_match_row_unranked (build_candidates pts events) w i hnorank
      mr hmrmem hmridx
    refine ⟨by rw [hc.1, hrow.2.2.1], by rw [hc.2.2.1, hrow.1],
      by rw [hc.2.2.2, hrow.2.1], fun hallU => by rw [hc.2.1, hrow.2.2.2 hallU]⟩

/-- Witness for the amended C7 at the concrete null-date point. -/
theorem unranked_rows_amended_witness :
    (⟨0, none, some "A".data, some "B".data, some 0, none, none, some tierNone⟩ : OutRow).tipo =
      some tierNone ∧
    (⟨0, none, some "A".data, some "B".data, some 0, none, none, some tierNone⟩ : OutRow).difMin =
      none ∧
    (⟨0, none, some "A".data, some "B".data, some 0, none, none, some tierNone⟩ : OutRow).difAbs =
      none ∧
    ((∀ c ∈ build_candidates [(⟨some "A".data, some "B".data, none⟩ : FirmsPoint)]
        [(⟨some "A".data, some "B".data, some 0⟩ : UngrdRow)], c.idx = 0 → c.fechaU = none) →
      (⟨0, none, some "A".data, some "B".data, some 0, none, none,
        some tierNone⟩ : OutRow).fechaMatch = none) :=
  unranked_rows_amended [(⟨some "A".data, some "B".data, none⟩ : FirmsPoint)]
    [(⟨some "A".data, some "B".data, some 0⟩ : UngrdRow)] 5 0 (by decide)
    ⟨0, none, some "A".data, some "B".data, some 0, none, none, some tierNone⟩
    (by decide) (by decide)

/-- Counterexample to C7 as stated: a point whose own date is null with a
candidate event whose date is non-null has zero ranked candidates, yet its
row carries the candidate's event date (not null) alongside tier
`sin_coincidencia`, because the groupwise first-non-null selection keeps
the event date column while the day differences are null. -/
theorem unranked_rows_counterexample :
    (∀ c ∈ build_candidates [(⟨some "A".data, some "B".data, none⟩ : FirmsPoint)]
        [(⟨some "A".data, some "B".data, some 0⟩ : UngrdRow)],
      ¬(c.fechaF.isSome = true ∧ c.fechaU.isSome = true)) ∧
    ∃ r ∈ attach_matches [(⟨some "A".data, some "B".data, none⟩ : FirmsPoint)]
        (best_match_per_point
          (build_candidates [(⟨some "A".data, some "B".data, none⟩ : FirmsPoint)]
            [(⟨some "A".data, some "B".data, some 0⟩ : UngrdRow)]) 5),
      r.tipo = some tierNone ∧ r.fechaMatch = some 0 := by decide

/-! ### Text normalizer (claim C8) -/

lemma lookup_mem {β : Type} (l : List (Char × β)) (c : Char) (r : β)
    (h : l.lookup c = some r) : (c, r) ∈ l := by
  induction l with
  | nil => simp at h
  | cons p t ih =>
    rw [List.lookup_cons] at h
    by_cases hk : c == p.1
    · simp only [hk, if_true] at h
      cases h
      have hcp : c = p.1 := by simpa using hk
      subst hcp
      simp
    · simp only [hk, Bool.false_eq_true, if_false] at h
      exact List.mem_cons_of_mem _ (ih h)

lemma upperMap_rhs_ok : ∀ pr ∈ upperMap, ∀ u ∈ pr.2,
    ∀ d ∈ (nfkd u).filter (fun x => !combining x),
      pyUpper d = [d] ∧ nfkd d = [d] ∧ combining d = false := by decide

lemma nfkdMap_rhs_ok : ∀ pr ∈ nfkdMap, idemSafe pr.1 = true →
    ∀ d ∈ pr.2.filter (fun x => !combining x),
      pyUpper d = [d] ∧ nfkd d = [d] ∧ combining d = false := by decide

lemma normChar_fixed (c : Char) (hc : idemSafe c = true) :
    ∀ d ∈ (pyUpper c).flatMap (fun u => (nfkd u).filter (fun x => !combining x)),
      pyUpper d = [d] ∧ nfkd d = [d] ∧ combining d = false := by
  intro d hd
  obtain ⟨u, hu, hdu⟩ := List.mem_flatMap.mp hd
  cases hlc : upperMap.lookup c with
  | some r =>
    have hpc : pyUpper c = r := by unfold pyUpper; rw [hlc]; rfl
    rw [hpc] at hu
    exact upperMap_rhs_ok (c, r) (lookup_mem _ _ _ hlc) u hu d hdu
  | none =>
    have hpc : pyUpper c = [c] := by unfold pyUpper; rw [hlc]; rfl
    rw [hpc] at hu
    have huc : u = c := by simpa using hu
    subst huc
    cases hln : nfkdMap.lookup u with
    | some r2 =>
      have hnu : nfkd u = r2 := by unfold nfkd; rw [hln]; rfl
      rw [hnu] at hdu
      exact nfkdMap_rhs_ok (u, r2) (lookup_mem _ _ _ hln) hc d hdu
    | none =>
      have hnu : nfkd u = [u] := by unfold nfkd; rw [hln]; rfl
      rw [hnu] at hdu
      by_cases hcomb : combining u
      · rw [List.filter_cons, if_neg (by simp [hcomb])] at hdu
        simp at hdu
      · rw [List.filter_cons, if_pos (by simpa using hcomb)] at hdu
        have hduc : d = u := by simpa using hdu
        subst hduc
        refine ⟨by unfold pyUpper; rw [hlc]; rfl, hnu, ?_⟩
        simpa using hcomb

lemma collapseAux_chars : ∀ (l : PyStr) (b : Bool) (d : Char), d ∈ collapseAux b l →
    d = ' ' ∨ (d ∈ l ∧ pyIsSpace d = false) := by
  intro l
  induction l with
  | nil => intro b d hd; simp [collapseAux] at hd
  | cons c rest ih =>
    intro b d hd
    unfold collapseAux at hd
    by_cases hc : pyIsSpace c
    · rw [if_pos hc] at hd
      cases b with
      | true =>
        rcases ih true d hd with h | ⟨h1, h2⟩
        · exact Or.inl h
        · exact Or.inr ⟨List.mem_cons_of_mem _ h1, h2⟩
      | false =>
        rcases List.mem_cons.mp hd with rfl | hd2
        · exact Or.inl rfl
        · rcases ih true d hd2 with h | ⟨h1, h2⟩
          · exact Or.inl h
          · exact Or.inr ⟨List.mem_cons_of_mem _ h1, h2⟩
    · rw [if_neg hc] at hd
      rcases List.mem_cons.mp hd with rfl | hd2
      · exact Or.inr ⟨by simp, by simpa using hc⟩
      · rcases ih false d hd2 with h | ⟨h1, h2⟩
        · exact Or.inl h
        · exact Or.inr ⟨List.mem_cons_of_mem _ h1, h2⟩

lemma collapseAux_head_true : ∀ (l : PyStr) (c : Char),
    (collapseAux true l).head? = some c → pyIsSpace c = false := by
  intro l
  induction l with
  | nil => intro c hc; simp [collapseAux] at hc
  | cons a rest ih =>
    intro c hc
    unfold collapseAux at hc
    by_cases ha : pyIsSpace a
    · rw [if_pos ha] at hc
      exact ih c hc
    · rw [if_neg ha] at hc
      simp only [List.head?_cons, Option.some.injEq] at hc
      rw [← hc]
      simpa using ha

lemma collapseAux_chain : ∀ (l : PyStr) (b : Bool),
    (collapseAux b l).Chain' (fun x y => ¬(pyIsSpace x = true ∧ pyIsSpace y = true)) := by
  intro l
  induction l with
  | nil => intro b; simp [collapseAux]
  | cons c rest ih =>
    intro b
    unfold collapseAux
    by_cases hc : pyIsSpace c
    · rw [if_pos hc]
      cases b with
      | true => simpa using ih true
      | false =>
        simp only [Bool.false_eq_true, if_false]
        rw [List.chain'_cons']
        refine ⟨?_, ih true⟩
        intro y hy
        have := collapseAux_head_true rest y hy
        simp [this]
    · rw [if_neg hc]
      rw [List.chain'_cons']
      refine ⟨?_, ih false⟩
      intro y _
      simp [hc]

lemma collapseAux_flag_eq : ∀ (l : PyStr), (∀ h ∈ l.head?, pyIsSpace h = false) →
    collapseAux true l = collapseAux false l := by
  intro l hl
  cases l with
  | nil => rfl
  | cons a t =>
    have ha := hl a (by simp)
    unfold collapseAux
    rw [if_neg (by simp [ha]), if_neg (by simp [ha])]

lemma collapseAux_fix : ∀ (l : PyStr), (∀ d ∈ l, pyIsSpace d = true → d = ' ') →
    l.Chain' (fun x y => ¬(pyIsSpace x = true ∧ pyIsSpace y = true)) →
    collapseAux false l = l := by
  intro l
  induction l with
  | nil => intro _ _; rfl
  | cons c rest ih =>
    intro h1 h2
    rw [List.chain'_cons'] at h2
    unfold collapseAux
    by_cases hc : pyIsSpace c
    · rw [if_pos hc]
      simp only [Bool.false_eq_true, if_false]
      have hceq : c = ' ' := h1 c (by simp) hc
      have hresthead : ∀ h ∈ rest.head?, pyIsSpace h = false := by
        intro h hh
        have := h2.1 h hh
        by_cases hsp : pyIsSpace h
        · exact absurd ⟨hc, hsp⟩ this
        · simpa using hsp
      rw [collapseAux_flag_eq rest hresthead,
        ih (fun d hd => h1 d (by simp [hd])) h2.2, hceq]
    · rw [if_neg hc, ih (fun d hd => h1 d (by simp [hd])) h2.2]

lemma dropWhile_head_not (p : Char → Bool) :
    ∀ (l : PyStr) (c : Char), (l.dropWhile p).head? = some c → p c = false := by
  intro l
  induction l with
  | nil => intro c hc; simp at hc
  | cons a t ih =>
    intro c hc
    rw [List.dropWhile_cons] at hc
    by_cases ha : p a
    · rw [if_pos ha] at hc
      exact ih c hc
    · rw [if_neg ha] at hc
      simp only [List.head?_cons, Option.some.injEq] at hc
      rw [← hc]
      simpa using ha

lemma stripWs_decomp (l : PyStr) : ∃ s t, l = s ++ stripWs l ++ t := by
  obtain ⟨s, hs⟩ := List.dropWhile_suffix (l := l) (p := pyIsSpace)
  obtain ⟨t, ht⟩ := List.dropWhile_suffix (l := (l.dropWhile pyIsSpace).reverse)
    (p := pyIsSpace)
  refine ⟨s, t.reverse, ?_⟩
  have hd : l.dropWhile pyIsSpace = stripWs l ++ t.reverse := by
    have := congrArg List.reverse ht
    simp only [List.reverse_append, List.reverse_reverse] at this
    rw [← this]
    rfl
  calc l = s ++ l.dropWhile pyIsSpace := hs.symm
    _ = s ++ (stripWs l ++ t.reverse) := by rw [hd]
    _ = s ++ stripWs l ++ t.reverse := by rw [List.append_assoc]

lemma stripWs_subset (l : PyStr) : ∀ d ∈ stripWs l, d ∈ l := by
  intro d hd
  obtain ⟨s, t, hst⟩ := stripWs_decomp l
  rw [hst]
  simp [hd]

lemma stripWs_head (l : PyStr) (c : Char) (hc : (stripWs l).head? = some c) :
    pyIsSpace c = false := by
  obtain ⟨t, ht⟩ := List.dropWhile_suffix (l := (l.dropWhile pyIsSpace).reverse)
    (p := pyIsSpace)
  have hd : l.dropWhile pyIsSpace = stripWs l ++ t.reverse := by
    have := congrArg List.reverse ht
    simp only [List.reverse_append, List.reverse_reverse] at this
    rw [← this]
    rfl
  have : (l.dropWhile pyIsSpace).head? = some c := by
    rw [hd]
    cases hsw : stripWs l with
    | nil => rw [hsw] at hc; simp at hc
    | cons x xs =>
      rw [hsw] at hc
      simp only [List.head?_cons, Option.some.injEq] at hc
      simp [hc]
  exact dropWhile_head_not pyIsSpace l c this

lemma stripWs_last (l : PyStr) (c : Char) (hc : (stripWs l).getLast? = some c) :
    pyIsSpace c = false := by
  have : ((l.dropWhile pyIsSpace).reverse.dropWhile pyIsSpace).head? = some c := by
    have := hc
    unfold stripWs at this
    rwa [List.getLast?_reverse] at this
  exact dropWhile_head_not pyIsSpace _ c this

lemma dropWhile_eq_self_of_head (p : Char → Bool) (l : PyStr)
    (hl : ∀ c ∈ l.head?, p c = false) : l.dropWhile p = l := by
  cases l with
  | nil => rfl
  | cons a t =>
    have := hl a (by simp)
    rw [List.dropWhile_cons, if_neg (by simp [this])]

lemma stripWs_fix (l : PyStr) (hh : ∀ c ∈ l.head?, pyIsSpace c = false)
    (hl : ∀ c ∈ l.getLast?, pyIsSpace c = false) : stripWs l = l := by
  unfold stripWs
  rw [dropWhile_eq_self_of_head pyIsSpace l hh]
  rw [dropWhile_eq_self_of_head pyIsSpace l.reverse
    (by intro c hc; rw [List.head?_reverse] at hc; exact hl c hc)]
  exact List.reverse_reverse l

lemma flatMap_id_of_fix (f : Char → List Char) :
    ∀ l : PyStr, (∀ d ∈ l, f d = [d]) → l.flatMap f = l := by
  intro l
  induction l with
  | nil => intro _; rfl
  | cons a t ih =>
    intro h
    rw [List.flatMap_cons, h a (by simp), ih (fun d hd => h d (by simp [hd]))]
    rfl

/-- C8 (amended).  The text normalizer: null maps to null and the spec's
concrete example normalizes as stated; idempotence holds for every input
avoiding the two ordinal-indicator characters, whose compatibility
decompositions are lowercase letters produced only after the uppercasing
step (and on which the function is therefore not idempotent — see the
counterexample). -/
theorem normalize_text_amended :
    normalize_text none = none ∧
    normalize_text (some "Bogotá  D.C. ".data) = some "BOGOTA D.C.".data ∧
    ∀ s : PyStr, (∀ c ∈ s, idemSafe c = true) →
      normalize_text (normalize_text (some s)) = normalize_text (some s) := by
  refine ⟨rfl, by decide, ?_⟩
  intro s hsafe
  · have hout : normalize_text (some s) =
        some (stripWs (collapseWs (((stripWs (s.flatMap pyUpper)).flatMap nfkd).filter
          (fun c => !combining c)))) := rfl
    set s2 := ((stripWs (s.flatMap pyUpper)).flatMap nfkd).filter
      (fun c => !combining c) with hs2
    set y := stripWs (collapseWs s2) with hy
    rw [hout]
    -- characterize the characters of the output
    have hfix : ∀ d ∈ y, pyUpper d = [d] ∧ nfkd d = [d] ∧ combining d = false := by
      intro d hd
      have hdc : d ∈ collapseWs s2 := stripWs_subset _ d (hy ▸ hd)
      rcases collapseAux_chars s2 false d hdc with rfl | ⟨hds2, _⟩
      · exact ⟨by decide, by decide, by decide⟩
      · rw [hs2] at hds2
        have hfil := List.mem_filter.mp hds2
        obtain ⟨u, hu, hdnf⟩ := List.mem_flatMap.mp hfil.1
        have hupool : u ∈ s.flatMap pyUpper := stripWs_subset _ u hu
        obtain ⟨c, hcs, hcu⟩ := List.mem_flatMap.mp hupool
        exact normChar_fixed c (hsafe c hcs) d (List.mem_flatMap.mpr
          ⟨u, hcu, List.mem_filter.mpr ⟨hdnf, hfil.2⟩⟩)
    have hspace : ∀ d ∈ y, pyIsSpace d = true → d = ' ' := by
      intro d hd hds
      have hdc : d ∈ collapseWs s2 := stripWs_subset _ d (hy ▸ hd)
      rcases collapseAux_chars s2 false d hdc with rfl | ⟨_, hns⟩
      · rfl
      · rw [hds] at hns
        cases hns
    have hchain : y.Chain' (fun a b => ¬(pyIsSpace a = true ∧ pyIsSpace b = true)) := by
      obtain ⟨a, b, hab⟩ := stripWs_decomp (collapseWs s2)
      have hch : (collapseWs s2).Chain'
          (fun x y => ¬(pyIsSpace x = true ∧ pyIsSpace y = true)) :=
        collapseAux_chain s2 false
      rw [show collapseWs s2 = a ++ (stripWs (collapseWs s2) ++ b) from by
        rw [← List.append_assoc]; exact hab] at hch
      have h1 := (List.chain'_append.mp hch).2.1
      exact (List.chain'_append.mp h1).1
    have hhead : ∀ c ∈ y.head?, pyIsSpace c = false := by
      intro c hc
      exact stripWs_head _ c (by rw [← hy]; exact hc)
    have hlast : ∀ c ∈ y.getLast?, pyIsSpace c = false := by
      intro c hc
      exact stripWs_last _ c (by rw [← hy]; exact hc)
    -- the second pass is the identity on y
    have step1 : y.flatMap pyUpper = y :=
      flatMap_id_of_fix pyUpper y (fun d hd => (hfix d hd).1)
    have step2 : stripWs y = y := stripWs_fix y hhead hlast
    have step3 : y.flatMap nfkd = y :=
      flatMap_id_of_fix nfkd y (fun d hd => (hfix d hd).2.1)
    have step4 : y.filter (fun c => !combining c) = y :=
      List.filter_eq_self.mpr (fun d hd => by rw [(hfix d hd).2.2]; rfl)
    have step5 : collapseWs y = y := collapseAux_fix y hspace hchain
    show normalize_text (some y) = some y
    have : normalize_text (some y) =
        some (stripWs (collapseWs (((stripWs (y.flatMap pyUpper)).flatMap nfkd).filter
          (fun c => !combining c)))) := rfl
    rw [this, step1, step2, step3, step4, step5, step2]

/-- Counterexample to C8 as stated: `str.upper` leaves the masculine
ordinal indicator unchanged and runs before the NFKD step, whose
compatibility decomposition of that character is the lowercase letter
`o`; a second application of the normalizer then uppercases it, so the
function is not idempotent on every input. -/
theorem normalize_text_counterexample :
    normalize_text (some ['º']) = some ['o'] ∧
    normalize_text (normalize_text (some ['º'])) = some ['O'] ∧
    normalize_text (normalize_text (some ['º'])) ≠ normalize_text (some ['º']) := by
  refine ⟨by decide, by decide, by decide⟩

/-- Witness for the amended C8: the spec's Bogotá example contains no
ordinal-indicator character, so the restricted idempotence applies to
it. -/
theorem normalize_text_amended_witness :
    (∀ c ∈ "Bogotá  D.C. ".data, idemSafe c = true) ∧
    normalize_text (normalize_text (some "Bogotá  D.C. ".data)) =
      normalize_text (some "Bogotá  D.C. ".data) :=
  ⟨by decide, normalize_text_amended.2.2 "Bogotá  D.C. ".data (by decide)⟩

end Spec2Proof
